import Mathlib

/-!
# Verification of the i18n scan core (`src/scan.ts`)

This file shallowly embeds the core of the i18n scanning tool:

* the key extractor (`extractKeys` with its three call patterns and
  `unescapeString`),
* the locale reconciler (the nested `for` loops of `runScan` that add
  missing keys without overwriting existing entries), and
* the locale serializer (`saveLocaleFile`: sorted keys,
  `JSON.stringify(…, null, 2)` plus a trailing newline).

JavaScript strings are modelled as `List Char`; where the order of
UTF-16 code units matters (the default `Array.prototype.sort`
comparator) the encoding to code units is made explicit.  JavaScript
objects are modelled as insertion-ordered association lists, and their
enumeration order (array-index keys first, in ascending numeric order)
is modelled explicitly where it is observable.
-/

namespace I18nScan

/-- A JavaScript string, as a list of Unicode scalar values. -/
abbrev JSStr := List Char

/-! ## Key extractor (`scan.ts`, `CALL_PATTERNS` / `extractKeys`) -/

/-- JavaScript line terminators: the characters *not* matched by `.`
in a regex without the `s` flag. -/
def isLineTerm (c : Char) : Bool :=
  c == '\n' || c == '\r' || c == ' ' || c == ' '

/-- Characters matched by the regex class `\s` in JavaScript. -/
def isJsWs (c : Char) : Bool :=
  c == ' ' || c == '\t' || c == '\n' || c == '\x0b' || c == '\x0c' || c == '\r' ||
  c == ' ' || c == ' ' ||
  (0x2000 ≤ c.toNat && c.toNat ≤ 0x200a) ||
  c == ' ' || c == ' ' || c == ' ' || c == ' ' ||
  c == '　' || c == '﻿'

/-- The three quote characters accepted by the class `['"`]`. -/
def isQuoteChar (c : Char) : Bool :=
  c == '\'' || c == '"' || c == '`'

/-- Strip an explicit prefix from a string, returning the remainder. -/
def stripPrefix? : JSStr → JSStr → Option JSStr
  | [], s => some s
  | _ :: _, [] => none
  | p :: ps, c :: cs => if c = p then stripPrefix? ps cs else none

/-- Strip the call head `(?:__|trans)\(` of patterns 1 and 3. -/
def stripCallHead (s : JSStr) : Option JSStr :=
  match stripPrefix? ['_', '_', '('] s with
  | some r => some r
  | none => stripPrefix? ['t', 'r', 'a', 'n', 's', '('] s

/-- Greedy scan of the quoted content `((?:(?!\1|\\).|\\.)+)` for
quote character `q`: a unit is either a single character that is not
`q`, not a backslash and not a line terminator, or a backslash
followed by any non-line-terminator.  Returns the raw consumed
content together with the unconsumed remainder. -/
def takeUnits (q : Char) : JSStr → JSStr × JSStr
  | [] => ([], [])
  | c :: rest =>
    if c = '\\' then
      match rest with
      | [] => ([], [c])
      | d :: rest2 =>
        if isLineTerm d then ([], c :: d :: rest2)
        else
          let (u, r) := takeUnits q rest2
          (c :: d :: u, r)
    else if c = q ∨ isLineTerm c then ([], c :: rest)
    else
      let (u, r) := takeUnits q rest
      (c :: u, r)

/-- After the opening quote: greedy content, the closing quote,
optional whitespace and the closing parenthesis. -/
def matchQuotedAt (q : Char) (s : JSStr) : Option (JSStr × JSStr) :=
  match takeUnits q s with
  | (content, rest) =>
    if content = [] then none
    else
      match rest with
      | c :: r =>
        if c = q then
          match r.dropWhile isJsWs with
          | c2 :: r3 => if c2 = ')' then some (content, r3) else none
          | [] => none
        else none
      | [] => none

/-- Attempt pattern 1, `(?:__|trans)\(\s*(['"`])((?:(?!\1|\\).|\\.)+)\1\s*\)`,
at the current position.  Returns the captured content and the text
after the match end. -/
def matchP1At (s : JSStr) : Option (JSStr × JSStr) :=
  match stripCallHead s with
  | none => none
  | some s1 =>
    match s1.dropWhile isJsWs with
    | q :: s3 => if isQuoteChar q then matchQuotedAt q s3 else none
    | [] => none

/-- Attempt pattern 2, `@lang\(\s*(['"`])((?:(?!\1|\\).|\\.)+)\1\s*\)`,
at the current position. -/
def matchP2At (s : JSStr) : Option (JSStr × JSStr) :=
  match stripPrefix? ['@', 'l', 'a', 'n', 'g', '('] s with
  | none => none
  | some s1 =>
    match s1.dropWhile isJsWs with
    | q :: s3 => if isQuoteChar q then matchQuotedAt q s3 else none
    | [] => none

/-- Attempt pattern 3, ``(?:__|trans)\(\s*`([^`$]+)`\s*\)``,
at the current position. -/
def matchP3At (s : JSStr) : Option (JSStr × JSStr) :=
  match stripCallHead s with
  | none => none
  | some s1 =>
    match s1.dropWhile isJsWs with
    | q :: s3 =>
      if q = '`' then
        match s3.span (fun c => !(c == '`' || c == '$')) with
        | (content, rest) =>
          if content = [] then none
          else
            match rest with
            | c2 :: r =>
              if c2 = '`' then
                match r.dropWhile isJsWs with
                | c3 :: r3 => if c3 = ')' then some (content, r3) else none
                | [] => none
              else none
            | [] => none
      else none
    | [] => none

/-- Global regex scanning (`re.exec` in a loop): try the matcher at
each position from left to right; on a match, resume after the match
end.  The fuel argument is instantiated with the text length, which
suffices because every match consumes at least one character. -/
def scanAllF (m : JSStr → Option (JSStr × JSStr)) : Nat → JSStr → List JSStr
  | 0, _ => []
  | _ + 1, [] => []
  | fuel + 1, c :: rest =>
    match m (c :: rest) with
    | some (content, r) => content :: scanAllF m fuel r
    | none => scanAllF m fuel rest

/-- All matches of a pattern in a source text, in order. -/
def scanAll (m : JSStr → Option (JSStr × JSStr)) (s : JSStr) : List JSStr :=
  scanAllF m s.length s

/-- One global replacement pass `str.replace(/ab/g, r)` for a
two-character pattern: left-to-right, non-overlapping. -/
def replacePair (a b r : Char) : JSStr → JSStr
  | [] => []
  | [c] => [c]
  | c :: d :: rest =>
    if c = a ∧ d = b then r :: replacePair a b r rest
    else c :: replacePair a b r (d :: rest)

/-- `unescapeString` of `scan.ts`: the three sequential global
replacements `\' → '`, `\" → "`, `\\ → \`. -/
def unescapeString (s : JSStr) : JSStr :=
  replacePair '\\' '\\' '\\'
    (replacePair '\\' '"' '"'
      (replacePair '\\' '\'' '\'' s))

/-- `Set.add`: append if not already present (JS sets keep insertion
order). -/
def insertKey (ks : List JSStr) (k : JSStr) : List JSStr :=
  if k ∈ ks then ks else ks ++ [k]

/-- The body of the `while ((m = re.exec(source)) !== null)` loop:
keep a match only if it is non-empty and contains no newline, then
unescape it and add it to the set. -/
def addMatches (ks : List JSStr) (ms : List JSStr) : List JSStr :=
  ms.foldl
    (fun ks k => if k ≠ [] ∧ '\n' ∉ k then insertKey ks (unescapeString k) else ks)
    ks

/-- `extractKeys` of `scan.ts`: run the three patterns over the source
independently and union their (filtered, unescaped) matches. -/
def extractKeys (source : JSStr) : List JSStr :=
  addMatches
    (addMatches
      (addMatches [] (scanAll matchP1At source))
      (scanAll matchP2At source))
    (scanAll matchP3At source)

/-! ## Locale reconciler (`scan.ts`, `runScan`) -/

/-- A locale dictionary: a JavaScript object mapping keys to values,
modelled as an insertion-ordered association list with unique keys. -/
abbrev LocaleMap := List (JSStr × JSStr)

/-- The own property names of `Object.prototype` — the ECMAScript
§20.1.3 methods together with the Annex B legacy accessors implemented
by Node — which is the prototype of every dictionary the program
handles: both `{}` literals and `JSON.parse` results. -/
def objectProtoProps : List JSStr :=
  ["constructor", "hasOwnProperty", "isPrototypeOf",
   "propertyIsEnumerable", "toLocaleString", "toString", "valueOf",
   "__defineGetter__", "__defineSetter__", "__lookupGetter__",
   "__lookupSetter__", "__proto__"].map String.toList

/-- Is the key an own property name of `Object.prototype`? -/
def isProtoProp (k : JSStr) : Bool :=
  objectProtoProps.any (fun p => p == k)

/-- `key in dict`: the JS `in` operator walks the prototype chain, so
a key tests as present when it is an own key of the dictionary or an
own property name of `Object.prototype` (e.g. `"toString" in {}` is
`true`). -/
def hasKey (d : LocaleMap) (k : JSStr) : Bool :=
  d.any (fun p => p.1 == k) || isProtoProp k

/-- `dict[key]`, as an optional value. -/
def getVal (d : LocaleMap) (k : JSStr) : Option JSStr :=
  (d.find? (fun p => p.1 == k)).map (·.2)

/-- The `placeholder` option: `"copy" | "empty"`. -/
inductive Placeholder
  | copy
  | empty
deriving DecidableEq

/-- The value assigned to a newly added key:
`(loc === master) ? key : (placeholder === "copy" ? key : "")`. -/
def newValue (master : JSStr) (ph : Placeholder) (loc key : JSStr) : JSStr :=
  if loc = master then key else if ph = .copy then key else []

/-- The in-memory state of `runScan`'s reconciliation loop: the
per-locale dictionaries, the total counter `addedTotal` and the
per-locale counters `perLocaleCounts`. -/
structure RecState where
  data : JSStr → LocaleMap
  addedTotal : Nat
  perLocale : JSStr → Nat

/-- The loop body
`if (!(key in dict)) { dict[key] = …; addedTotal++; perLocaleCounts[loc]++; }`.
A new key is appended at the end of the dictionary (JS object
insertion order). -/
def addMissing (master : JSStr) (ph : Placeholder) (key : JSStr)
    (st : RecState) (loc : JSStr) : RecState :=
  if hasKey (st.data loc) key then st
  else
    { data := fun l =>
        if l = loc then st.data loc ++ [(key, newValue master ph loc key)]
        else st.data l
      addedTotal := st.addedTotal + 1
      perLocale := fun l => if l = loc then st.perLocale loc + 1 else st.perLocale l }

/-- The inner loop `for (const loc of locales)` for one discovered key. -/
def reconcileKey (locales : List JSStr) (master : JSStr) (ph : Placeholder)
    (st : RecState) (key : JSStr) : RecState :=
  locales.foldl (addMissing master ph key) st

/-- The reconciliation loops of `runScan`: for each discovered key and
each configured locale, add the key when absent.  `init` gives each
locale's dictionary as loaded at run start. -/
def reconcile (keys : List JSStr) (locales : List JSStr) (master : JSStr)
    (ph : Placeholder) (init : JSStr → LocaleMap) : RecState :=
  keys.foldl (reconcileKey locales master ph) ⟨init, 0, fun _ => 0⟩

/-! ## Locale serializer (`scan.ts`, `saveLocaleFile`)

`saveLocaleFile` sorts the keys (`Object.keys(obj).sort()`, the
default comparator comparing UTF-16 code unit sequences), rebuilds an
object in that insertion order and prints it with
`JSON.stringify(sorted, null, 2) + "\n"`.  A JavaScript object
enumerates its own keys with array-index keys first in ascending
numeric order, then the remaining string keys in insertion order;
this is modelled by `propOrder`. -/

/-- The UTF-16 code units of a character. -/
def charUtf16 (c : Char) : List Nat :=
  let v := c.toNat
  if v < 0x10000 then [v]
  else [0xD800 + (v - 0x10000) / 0x400, 0xDC00 + (v - 0x10000) % 0x400]

/-- The UTF-16 code units of a string. -/
def utf16 (s : JSStr) : List Nat :=
  s.flatMap charUtf16

/-- Lexicographic strict order on code-unit sequences. -/
def unitsLt : List Nat → List Nat → Bool
  | _, [] => false
  | [], _ :: _ => true
  | a :: as, b :: bs => decide (a < b) || (a == b && unitsLt as bs)

/-- The default `Array.prototype.sort` string comparison `a < b`. -/
def jsLtKey (a b : JSStr) : Bool :=
  unitsLt (utf16 a) (utf16 b)

/-- The sort order used by `Object.keys(obj).sort()`. -/
def jsLeKey (a b : JSStr) : Prop :=
  ¬ jsLtKey b a = true

instance : DecidableRel jsLeKey := fun a b =>
  inferInstanceAs (Decidable (¬ jsLtKey b a = true))

/-- The key `"__proto__"`, the one accessor property on
`Object.prototype`. -/
def protoKey : JSStr :=
  "__proto__".toList

/-- `Object.keys(obj).sort()` followed by the `reduce` rebuild
`acc[k] = obj[k]`: keys in ascending string order, each paired with
its value.  Assigning to the key `"__proto__"` invokes the inherited
`Object.prototype.__proto__` setter and creates no own property (and,
the assigned value being a string, does not even change the
prototype), so the rebuilt object silently drops that key; every
other inherited property of `Object.prototype` is a writable data
property, for which assignment does create an own property. -/
def sortedEntries (obj : LocaleMap) : LocaleMap :=
  (((obj.map Prod.fst).insertionSort jsLeKey).filter
      (fun k => k != protoKey)).map
    (fun k => (k, (getVal obj k).getD []))

/-- Is the character a decimal digit? -/
def isDigitChar (c : Char) : Bool :=
  '0' ≤ c && c ≤ '9'

/-- Numeric value of a digit string. -/
def keyNat (s : JSStr) : Nat :=
  s.foldl (fun acc c => 10 * acc + (c.toNat - 48)) 0

/-- Is the string an ECMAScript array index: the canonical decimal
representation (no leading zero except `"0"` itself) of an integer
strictly below `2^32 - 1`? -/
def isArrayIndexKey (s : JSStr) : Bool :=
  s ≠ [] && s.all isDigitChar && (s = ['0'] || s.head? != some '0') &&
    keyNat s < 4294967295

/-- Numeric comparison used for the array-index portion of a
JavaScript object's property order. -/
def idxLe (a b : JSStr) : Prop :=
  keyNat a ≤ keyNat b

instance : DecidableRel idxLe := fun a b =>
  inferInstanceAs (Decidable (keyNat a ≤ keyNat b))

/-- A JavaScript object's own-property enumeration order
(`OrdinaryOwnPropertyKeys`): array-index keys first in ascending
numeric order, then the remaining keys in insertion order. -/
def propOrder (entries : LocaleMap) : LocaleMap :=
  (entries.filter (fun e => isArrayIndexKey e.1)).insertionSort
      (fun a b => idxLe a.1 b.1) ++
    entries.filter (fun e => !isArrayIndexKey e.1)

instance : DecidableRel (fun (a b : JSStr × JSStr) => idxLe a.1 b.1) :=
  fun a b => inferInstanceAs (Decidable (keyNat a.1 ≤ keyNat b.1))

/-- JSON string escaping performed by `JSON.stringify`: `"`, `\` and
the named control characters get two-character escapes, the other
control characters get `\u00XX`, everything else is copied. -/
def encodeChar (c : Char) : JSStr :=
  if c = '"' then ['\\', '"']
  else if c = '\\' then ['\\', '\\']
  else if c = '\x08' then ['\\', 'b']
  else if c = '\t' then ['\\', 't']
  else if c = '\n' then ['\\', 'n']
  else if c = '\x0c' then ['\\', 'f']
  else if c = '\r' then ['\\', 'r']
  else if c.toNat < 0x20 then
    ['\\', 'u', '0', '0', Nat.digitChar (c.toNat / 16), Nat.digitChar (c.toNat % 16)]
  else [c]

/-- A JSON string literal for `s`. -/
def encodeStr (s : JSStr) : JSStr :=
  '"' :: s.flatMap encodeChar ++ ['"']

/-- One member line of `JSON.stringify(obj, null, 2)`:
two spaces of indentation, the quoted key, `": "`, the quoted value. -/
def memberLine (e : JSStr × JSStr) : JSStr :=
  ' ' :: ' ' :: encodeStr e.1 ++ ':' :: ' ' :: encodeStr e.2

/-- The second and later member lines, each preceded by the separator
`",\n"`. -/
def membersTail : LocaleMap → JSStr
  | [] => []
  | e :: es => ',' :: '\n' :: memberLine e ++ membersTail es

/-- `JSON.stringify(obj, null, 2)` for a string-to-string object with
the given property order. -/
def jsonStringifyMap (entries : LocaleMap) : JSStr :=
  match entries with
  | [] => ['{', '}']
  | e :: es =>
    '{' :: '\n' :: (memberLine e ++ membersTail es ++ '\n' :: '}' :: [])

/-- The text written by `saveLocaleFile` for a dictionary:
sorted keys, 2-space indentation, and a trailing newline. -/
def serializeLocale (obj : LocaleMap) : JSStr :=
  jsonStringifyMap (propOrder (sortedEntries obj)) ++ ['\n']

/-! ## A JSON recognizer

To state that the serializer's output is valid JSON we define a parser
for the fragment of the JSON grammar in which every value is an object
whose members are string-valued: a text accepted by this parser is a
valid JSON text.  It admits arbitrary JSON whitespace and the full set
of string escape sequences; it is not tuned to the serializer. -/

/-- JSON insignificant whitespace. -/
def isJsonWs (c : Char) : Bool :=
  c == ' ' || c == '\t' || c == '\n' || c == '\r'

/-- Value of one hexadecimal digit. -/
def parseHexDigit (c : Char) : Option Nat :=
  if '0' ≤ c ∧ c ≤ '9' then some (c.toNat - 48)
  else if 'a' ≤ c ∧ c ≤ 'f' then some (c.toNat - 87)
  else if 'A' ≤ c ∧ c ≤ 'F' then some (c.toNat - 55)
  else none

/-- The character denoted by a single-letter JSON escape `\e`. -/
def escMap (e : Char) : Option Char :=
  if e = '"' then some '"'
  else if e = '\\' then some '\\'
  else if e = '/' then some '/'
  else if e = 'b' then some '\x08'
  else if e = 'f' then some '\x0c'
  else if e = 'n' then some '\n'
  else if e = 'r' then some '\r'
  else if e = 't' then some '\t'
  else none

/-- Parse the body of a JSON string literal after its opening quote,
up to and including the closing quote.  Returns the decoded content
and the remaining input. -/
def parseStringBody : JSStr → Option (JSStr × JSStr)
  | [] => none
  | c :: rest =>
    if c = '"' then some ([], rest)
    else if c = '\\' then
      match rest with
      | [] => none
      | e :: rest2 =>
        if e = 'u' then
          match rest2 with
          | h1 :: h2 :: h3 :: h4 :: rest3 =>
            match parseHexDigit h1, parseHexDigit h2, parseHexDigit h3, parseHexDigit h4 with
            | some a, some b, some c', some d =>
              match parseStringBody rest3 with
              | some (s, r) => some (Char.ofNat (4096 * a + 256 * b + 16 * c' + d) :: s, r)
              | none => none
            | _, _, _, _ => none
          | _ => none
        else
          match escMap e with
          | some d =>
            match parseStringBody rest2 with
            | some (s, r) => some (d :: s, r)
            | none => none
          | none => none
    else if c.toNat < 0x20 then none
    else
      match parseStringBody rest with
      | some (s, r) => some (c :: s, r)
      | none => none

/-- Parse one `"key" : "value"` member, leading whitespace allowed. -/
def parseMember (s : JSStr) : Option ((JSStr × JSStr) × JSStr) :=
  match s.dropWhile isJsonWs with
  | c :: r =>
    if c = '"' then
      match parseStringBody r with
      | some (k, r1) =>
        match r1.dropWhile isJsonWs with
        | c1 :: r2 =>
          if c1 = ':' then
            match r2.dropWhile isJsonWs with
            | c2 :: r3 =>
              if c2 = '"' then
                match parseStringBody r3 with
                | some (v, r4) => some ((k, v), r4)
                | none => none
              else none
            | [] => none
          else none
        | [] => none
      | none => none
    else none
  | [] => none

/-- Parse `, member` groups until the next non-whitespace character is
not a comma.  The fuel argument is instantiated with the input length,
which suffices because each group consumes at least one character. -/
def parseMembersRest : Nat → JSStr → Option (List (JSStr × JSStr) × JSStr)
  | 0, s => some ([], s.dropWhile isJsonWs)
  | fuel + 1, s =>
    match s.dropWhile isJsonWs with
    | c :: r =>
      if c = ',' then
        match parseMember r with
        | some (m, r2) =>
          match parseMembersRest fuel r2 with
          | some (ms, r3) => some (m :: ms, r3)
          | none => none
        | none => none
      else some ([], c :: r)
    | [] => some ([], [])

/-- Accept a complete JSON text consisting of one object whose member
values are strings; return its members in textual order. -/
def parseJsonObj (s : JSStr) : Option (List (JSStr × JSStr)) :=
  match s.dropWhile isJsonWs with
  | c :: r =>
    if c = '{' then
      match r.dropWhile isJsonWs with
      | c1 :: r1 =>
        if c1 = '}' then
          if r1.dropWhile isJsonWs = [] then some [] else none
        else
          match parseMember (c1 :: r1) with
          | some (m, r2) =>
            match parseMembersRest r2.length r2 with
            | some (ms, r3) =>
              match r3.dropWhile isJsonWs with
              | c4 :: r4 =>
                if c4 = '}' then
                  if r4.dropWhile isJsonWs = [] then some (m :: ms) else none
                else none
              | [] => none
            | none => none
          | none => none
      | [] => none
    else none
  | [] => none

/-- Split a text into its lines at `'\n'`. -/
def splitNl : JSStr → List JSStr
  | [] => [[]]
  | c :: r =>
    if c = '\n' then [] :: splitNl r
    else
      match splitNl r with
      | h :: t => (c :: h) :: t
      | [] => [[c]]

/-- Modelled from the spec: the reference left-to-right escape
resolution of §3 / §4.1 — a single scan over the content resolving
`\'`, `\"` and `\\` to their literal characters (a backslash followed
by any other character is left as it stands; that character is not a
backslash, so it cannot begin an escape sequence itself), against
which the implementation's three sequential global replacements are
compared. -/
def refUnescape : JSStr → JSStr
  | [] => []
  | c :: rest =>
    if c = '\\' then
      match rest with
      | [] => ['\\']
      | d :: rest2 =>
        if d = '\'' ∨ d = '"' ∨ d = '\\' then d :: refUnescape rest2
        else '\\' :: d :: refUnescape rest2
    else c :: refUnescape rest

/-! ## Dictionary lookup lemmas -/

theorem hasKey_eq_isSome (d : LocaleMap) (k : JSStr) :
    hasKey d k = ((getVal d k).isSome || isProtoProp k) := by
  induction d with
  | nil => rfl
  | cons p t ih =>
    simp only [hasKey, getVal, List.any_cons, List.find?_cons] at *
    by_cases h : p.1 == k
    · simp [h]
    · simp only [h, Bool.false_or, cond_false]
      exact ih

theorem getVal_append_single (d : LocaleMap) (k0 v0 k : JSStr) :
    getVal (d ++ [(k0, v0)]) k =
      match getVal d k with
      | some v => some v
      | none => if k0 = k then some v0 else none := by
  induction d with
  | nil =>
    simp only [List.nil_append, getVal, List.find?_cons, List.find?_nil]
    by_cases h : k0 = k
    · simp [h]
    · have : ((k0, v0).1 == k) = false := by
        simpa using h
      simp [this, h]
  | cons p t ih =>
    simp only [List.cons_append, getVal, List.find?_cons] at *
    by_cases h : p.1 == k
    · simp [h]
    · simp only [h, cond_false]
      exact ih

/-! ## Reconciliation lemmas -/

theorem getVal_addMissing (m : JSStr) (ph : Placeholder) (key : JSStr)
    (st : RecState) (loc l k : JSStr) :
    getVal ((addMissing m ph key st loc).data l) k =
      if l = loc ∧ k = key ∧ getVal (st.data loc) key = none ∧
          isProtoProp key = false
      then some (newValue m ph loc key)
      else getVal (st.data l) k := by
  unfold addMissing
  by_cases hk : hasKey (st.data loc) key
  · have hc : ¬ (l = loc ∧ k = key ∧ getVal (st.data loc) key = none ∧
        isProtoProp key = false) := by
      rintro ⟨-, -, hn, hp⟩
      rw [hasKey_eq_isSome, hn, hp] at hk
      simp at hk
    rw [if_pos hk, if_neg hc]
  · have hb : ((getVal (st.data loc) key).isSome || isProtoProp key) = false := by
      rw [hasKey_eq_isSome] at hk
      exact Bool.eq_false_iff.mpr hk
    obtain ⟨h1, hproto⟩ := Bool.or_eq_false_iff.mp hb
    have hnone : getVal (st.data loc) key = none := by
      cases hgv : getVal (st.data loc) key with
      | none => rfl
      | some v => rw [hgv] at h1; simp at h1
    rw [if_neg hk]
    by_cases hl : l = loc
    · subst hl
      simp only [if_pos rfl]
      by_cases hkk : k = key
      · subst hkk
        simp [getVal_append_single, hnone, hproto]
      · have hne : key ≠ k := fun h => hkk h.symm
        simp only [hkk, and_false, false_and, and_true, if_false]
        cases hgv : getVal (st.data l) k with
        | none => simp [getVal_append_single, hgv, hne]
        | some v => simp [getVal_append_single, hgv]
    · simp only [if_neg hl]
      have : ¬ (l = loc ∧ k = key ∧ getVal (st.data loc) key = none ∧
          isProtoProp key = false) := by
        intro h; exact hl h.1
      simp [this]

theorem getVal_addMissing_ne (m : JSStr) (ph : Placeholder) (key : JSStr)
    (st : RecState) (loc l k : JSStr) (hl : l ≠ loc) :
    getVal ((addMissing m ph key st loc).data l) k = getVal (st.data l) k := by
  rw [getVal_addMissing]
  have : ¬ (l = loc ∧ k = key ∧ getVal (st.data loc) key = none ∧
      isProtoProp key = false) := by
    intro h; exact hl h.1
  simp [this]

theorem getVal_reconcileKey (locales : List JSStr) (m : JSStr) (ph : Placeholder)
    (key : JSStr) : ∀ (st : RecState) (l k : JSStr),
    getVal ((reconcileKey locales m ph st key).data l) k =
      if l ∈ locales ∧ k = key ∧ getVal (st.data l) key = none ∧
          isProtoProp key = false
      then some (newValue m ph l key)
      else getVal (st.data l) k := by
  induction locales with
  | nil => intro st l k; simp [reconcileKey]
  | cons loc locs ih =>
    intro st l k
    have hfold : reconcileKey (loc :: locs) m ph st key =
        reconcileKey locs m ph (addMissing m ph key st loc) key := by
      simp [reconcileKey, List.foldl_cons]
    rw [hfold, ih]
    by_cases hp : isProtoProp key = true
    · have hk : hasKey (st.data loc) key = true := by
        rw [hasKey_eq_isSome, hp]
        simp
      have hstep : addMissing m ph key st loc = st := by
        unfold addMissing
        rw [if_pos hk]
      rw [hstep]
      simp [hp]
    · have hp' : isProtoProp key = false := Bool.eq_false_iff.mpr hp
      by_cases hl : l = loc
      · subst hl
        rw [getVal_addMissing]
        rw [getVal_addMissing]
        by_cases hkk : k = key
        · subst hkk
          by_cases hn : getVal (st.data l) k = none
          · simp [hn, hp']
          · simp [hn, hp']
        · by_cases hn : getVal (st.data l) key = none
          · simp [hkk, hn, hp', List.mem_cons]
          · simp [hkk, hn, hp', List.mem_cons]
      · have e1 := getVal_addMissing_ne m ph key st loc l key hl
        have e2 := getVal_addMissing_ne m ph key st loc l k hl
        rw [e1, e2]
        simp [List.mem_cons, hl]

theorem getVal_foldl_reconcileKey (locales : List JSStr) (m : JSStr)
    (ph : Placeholder) : ∀ (keys : List JSStr) (st : RecState) (l k : JSStr),
    getVal ((keys.foldl (reconcileKey locales m ph) st).data l) k =
      if l ∈ locales ∧ k ∈ keys ∧ getVal (st.data l) k = none ∧
          isProtoProp k = false
      then some (newValue m ph l k)
      else getVal (st.data l) k := by
  intro keys
  induction keys with
  | nil => intro st l k; simp
  | cons key keys ih =>
    intro st l k
    rw [List.foldl_cons, ih]
    rw [getVal_reconcileKey]
    by_cases hkk : k = key
    · subst hkk
      by_cases hp : isProtoProp k = true
      · simp [hp]
      · have hp' : isProtoProp k = false := Bool.eq_false_iff.mpr hp
        by_cases hl : l ∈ locales
        · by_cases hn : getVal (st.data l) k = none
          · simp [hl, hn, hp']
          · simp [hl, hn, hp']
        · simp [hl]
    · have hmem : k ∈ key :: keys ↔ k ∈ keys := by
        simp [List.mem_cons, hkk]
      simp [hkk, hmem]

/-- The master characterization of reconciliation: a key already
present keeps its value; an absent key is filled in exactly when the
locale is configured, the key was discovered and the key is not an
`Object.prototype` property name (the `in` test walks the prototype
chain), with the value given by the master/placeholder rule. -/
theorem getVal_reconcile (keys locales : List JSStr) (m : JSStr) (ph : Placeholder)
    (init : JSStr → LocaleMap) (l k : JSStr) :
    getVal ((reconcile keys locales m ph init).data l) k =
      if l ∈ locales ∧ k ∈ keys ∧ getVal (init l) k = none ∧
          isProtoProp k = false
      then some (newValue m ph l k)
      else getVal (init l) k := by
  unfold reconcile
  rw [getVal_foldl_reconcileKey]

theorem reconcileKey_of_present (locales : List JSStr) (m : JSStr)
    (ph : Placeholder) (key : JSStr) : ∀ (st : RecState),
    (∀ loc ∈ locales, hasKey (st.data loc) key = true) →
    reconcileKey locales m ph st key = st := by
  induction locales with
  | nil => intro st _; rfl
  | cons loc locs ih =>
    intro st h
    have hstep : addMissing m ph key st loc = st := by
      unfold addMissing
      rw [if_pos (h loc (List.mem_cons_self loc locs))]
    have : reconcileKey (loc :: locs) m ph st key =
        reconcileKey locs m ph (addMissing m ph key st loc) key := by
      simp [reconcileKey, List.foldl_cons]
    rw [this, hstep]
    exact ih st (fun l hl => h l (List.mem_cons_of_mem loc hl))

theorem foldl_reconcileKey_of_present (locales : List JSStr) (m : JSStr)
    (ph : Placeholder) : ∀ (keys : List JSStr) (st : RecState),
    (∀ key ∈ keys, ∀ loc ∈ locales, hasKey (st.data loc) key = true) →
    keys.foldl (reconcileKey locales m ph) st = st := by
  intro keys
  induction keys with
  | nil => intro st _; rfl
  | cons key keys ih =>
    intro st h
    rw [List.foldl_cons,
      reconcileKey_of_present locales m ph key st
        (h key (List.mem_cons_self key keys))]
    exact ih st (fun k hk => h k (List.mem_cons_of_mem key hk))

theorem reconcileKey_data_of_present (locales : List JSStr) (m : JSStr)
    (ph : Placeholder) (key loc : JSStr) : ∀ (st : RecState),
    hasKey (st.data loc) key = true →
    (reconcileKey locales m ph st key).data loc = st.data loc := by
  induction locales with
  | nil => intro st _; rfl
  | cons loc' locs ih =>
    intro st h
    have hfold : reconcileKey (loc' :: locs) m ph st key =
        reconcileKey locs m ph (addMissing m ph key st loc') key := by
      simp [reconcileKey, List.foldl_cons]
    rw [hfold]
    have hdata : (addMissing m ph key st loc').data loc = st.data loc := by
      unfold addMissing
      by_cases hk : hasKey (st.data loc') key
      · rw [if_pos hk]
      · rw [if_neg hk]
        by_cases hll : loc = loc'
        · exact absurd (hll ▸ h) hk
        · simp [hll]
    rw [ih (addMissing m ph key st loc') (by rw [hdata]; exact h), hdata]

theorem foldl_reconcileKey_data_of_present (locales : List JSStr) (m : JSStr)
    (ph : Placeholder) (loc : JSStr) : ∀ (keys : List JSStr) (st : RecState),
    (∀ key ∈ keys, hasKey (st.data loc) key = true) →
    (keys.foldl (reconcileKey locales m ph) st).data loc = st.data loc := by
  intro keys
  induction keys with
  | nil => intro st _; rfl
  | cons key keys ih =>
    intro st h
    rw [List.foldl_cons]
    have hdata : (reconcileKey locales m ph st key).data loc = st.data loc :=
      reconcileKey_data_of_present locales m ph key loc st
        (h key (List.mem_cons_self key keys))
    rw [ih (reconcileKey locales m ph st key)
      (fun k hk => by rw [hdata]; exact h k (List.mem_cons_of_mem key hk)), hdata]

/-! ## Claims about reconciliation -/

/-- C3: for every existing key `k` with value `v` in any locale's
starting dictionary, after reconciliation with any discovered key set
the dictionary still maps `k` to `v`: no existing key/value pair is
modified or removed. -/
theorem claim_C3_nondestructive_merge
    (keys locales : List JSStr) (master : JSStr) (ph : Placeholder)
    (init : JSStr → LocaleMap) (loc k v : JSStr)
    (h : getVal (init loc) k = some v) :
    getVal ((reconcile keys locales master ph init).data loc) k = some v := by
  rw [getVal_reconcile]
  simp [h]

theorem claim_C3_witness :
    getVal
      ((reconcile [('a' :: []), ('b' :: [])] [('e' :: 'n' :: []), ('d' :: 'e' :: [])]
          ('e' :: 'n' :: []) .copy
          (fun l => if l = ('e' :: 'n' :: []) then [(('a' :: []), ('H' :: 'i' :: []))] else [])).data
        ('e' :: 'n' :: []))
      ('a' :: []) = some ('H' :: 'i' :: []) :=
  claim_C3_nondestructive_merge _ _ _ _ _ _ _ _ (by decide)

/-- C4: every entry newly added during reconciliation has the value
determined by the rule: the key itself for the master locale,
otherwise the key in placeholder mode `copy` and the empty string in
placeholder mode `empty`. -/
theorem claim_C4_new_entry_value
    (keys locales : List JSStr) (master : JSStr) (ph : Placeholder)
    (init : JSStr → LocaleMap) (loc k v : JSStr)
    (habs : getVal (init loc) k = none)
    (hadd : getVal ((reconcile keys locales master ph init).data loc) k = some v) :
    v = if loc = master then k else if ph = .copy then k else [] := by
  rw [getVal_reconcile] at hadd
  by_cases hc : loc ∈ locales ∧ k ∈ keys ∧ getVal (init loc) k = none ∧
      isProtoProp k = false
  · rw [if_pos hc] at hadd
    have hv : newValue master ph loc k = v := Option.some.inj hadd
    rw [← hv]
    rfl
  · rw [if_neg hc, habs] at hadd
    exact absurd hadd (by simp)

theorem claim_C4_witness :
    getVal
      ((reconcile [('a' :: [])] [('d' :: 'e' :: [])] ('e' :: 'n' :: []) .empty
          (fun _ => [])).data ('d' :: 'e' :: [])) ('a' :: []) = some [] ∧
    (([] : JSStr) =
      if ('d' :: 'e' :: [] : JSStr) = ('e' :: 'n' :: []) then ('a' :: [])
      else if Placeholder.empty = .copy then ('a' :: []) else []) := by
  refine ⟨by decide, ?_⟩
  exact claim_C4_new_entry_value [('a' :: [])] [('d' :: 'e' :: [])]
    ('e' :: 'n' :: []) .empty (fun _ => []) ('d' :: 'e' :: []) ('a' :: []) []
    (by decide) (by decide)

/-- C5: reconciliation is idempotent — a second run with the same
discovered key set starting from the dictionaries produced by the
first run adds nothing (total counter 0, every per-locale counter 0)
and leaves every dictionary unchanged. -/
theorem claim_C5_idempotent
    (keys locales : List JSStr) (master : JSStr) (ph : Placeholder)
    (init : JSStr → LocaleMap) :
    (reconcile keys locales master ph
        (reconcile keys locales master ph init).data).addedTotal = 0 ∧
    (∀ loc, (reconcile keys locales master ph
        (reconcile keys locales master ph init).data).perLocale loc = 0) ∧
    (∀ loc, (reconcile keys locales master ph
        (reconcile keys locales master ph init).data).data loc =
      (reconcile keys locales master ph init).data loc) := by
  have hpres : ∀ key ∈ keys, ∀ loc ∈ locales,
      hasKey ((reconcile keys locales master ph init).data loc) key = true := by
    intro key hkey loc hloc
    rw [hasKey_eq_isSome]
    by_cases hp : isProtoProp key = true
    · rw [hp]
      simp
    · have hp' : isProtoProp key = false := Bool.eq_false_iff.mpr hp
      rw [getVal_reconcile]
      by_cases hn : getVal (init loc) key = none
      · rw [if_pos ⟨hloc, hkey, hn, hp'⟩]
        rfl
      · rw [if_neg (fun h => hn h.2.2.1)]
        simp [Option.isSome_iff_ne_none.mpr hn]
  have h2 : reconcile keys locales master ph
      (reconcile keys locales master ph init).data =
      ⟨(reconcile keys locales master ph init).data, 0, fun _ => 0⟩ := by
    unfold reconcile
    exact foldl_reconcileKey_of_present locales master ph keys _ hpres
  rw [h2]
  exact ⟨rfl, fun _ => rfl, fun _ => rfl⟩

/-- C6: reconciliation is order-independent — permuting the discovered
keys and the locale list leaves every locale's final dictionary
(looked up at any key) unchanged, hence the same keys are added with
the same values. -/
theorem claim_C6_order_independent
    (keys keys' locales locales' : List JSStr) (master : JSStr) (ph : Placeholder)
    (init : JSStr → LocaleMap)
    (hk : keys.Perm keys') (hl : locales.Perm locales') (loc k : JSStr) :
    getVal ((reconcile keys' locales' master ph init).data loc) k =
      getVal ((reconcile keys locales master ph init).data loc) k := by
  rw [getVal_reconcile, getVal_reconcile]
  simp only [hk.mem_iff, hl.mem_iff]

theorem claim_C6_witness :
    getVal
      ((reconcile [('b' :: []), ('a' :: [])] [('d' :: 'e' :: []), ('e' :: 'n' :: [])]
          ('e' :: 'n' :: []) .copy (fun _ => [])).data ('e' :: 'n' :: []))
      ('a' :: []) =
    getVal
      ((reconcile [('a' :: []), ('b' :: [])] [('e' :: 'n' :: []), ('d' :: 'e' :: [])]
          ('e' :: 'n' :: []) .copy (fun _ => [])).data ('e' :: 'n' :: []))
      ('a' :: []) :=
  claim_C6_order_independent _ _ _ _ _ _ _ (by decide) (by decide) _ _

/-- C9: when the master locale is not in the configured locale list,
reconciliation still completes (the model is a total function and adds
entries as usual), and no added entry ever receives its value through
the master branch: every added value is determined by the placeholder
mode alone. -/
theorem claim_C9_master_absent
    (keys locales : List JSStr) (master : JSStr) (ph : Placeholder)
    (init : JSStr → LocaleMap) (hm : master ∉ locales)
    (loc k v : JSStr)
    (habs : getVal (init loc) k = none)
    (hadd : getVal ((reconcile keys locales master ph init).data loc) k = some v) :
    v = if ph = .copy then k else [] := by
  rw [getVal_reconcile] at hadd
  by_cases hc : loc ∈ locales ∧ k ∈ keys ∧ getVal (init loc) k = none ∧
      isProtoProp k = false
  · rw [if_pos hc] at hadd
    have hv : newValue master ph loc k = v := Option.some.inj hadd
    have hne : loc ≠ master := fun h => hm (h ▸ hc.1)
    rw [← hv]
    unfold newValue
    rw [if_neg hne]
  · rw [if_neg hc, habs] at hadd
    exact absurd hadd (by simp)

theorem claim_C9_witness :
    getVal
      ((reconcile [('a' :: [])] [('d' :: 'e' :: [])] ('e' :: 'n' :: []) .copy
          (fun _ => [])).data ('d' :: 'e' :: [])) ('a' :: []) = some ('a' :: []) ∧
    (('a' :: [] : JSStr) = if Placeholder.copy = .copy then ('a' :: []) else []) := by
  refine ⟨by decide, ?_⟩
  exact claim_C9_master_absent [('a' :: [])] [('d' :: 'e' :: [])]
    ('e' :: 'n' :: []) .copy (fun _ => []) (by decide) ('d' :: 'e' :: [])
    ('a' :: []) ('a' :: []) (by decide) (by decide)

/-- C10 (amended): for every configured locale, the final own-key set
of the dictionary is the union of the existing own-key set and the set
of discovered keys that are not own property names of
`Object.prototype` — the `key in dict` test at the top of the loop
body walks the prototype chain, so a discovered key such as
`"toString"` is silently never added; a locale whose dictionary
already passes that test for every discovered key is returned with its
dictionary unchanged. -/
theorem claim_C10_keyset_union
    (keys locales : List JSStr) (master : JSStr) (ph : Placeholder)
    (init : JSStr → LocaleMap) (loc : JSStr) (hloc : loc ∈ locales) :
    (∀ k, (getVal ((reconcile keys locales master ph init).data loc) k).isSome =
        ((getVal (init loc) k).isSome ||
          (decide (k ∈ keys) && !isProtoProp k))) ∧
    ((∀ k ∈ keys, hasKey (init loc) k = true) →
      (reconcile keys locales master ph init).data loc = init loc) := by
  constructor
  · intro k
    rw [getVal_reconcile]
    by_cases hn : getVal (init loc) k = none
    · by_cases hk : k ∈ keys
      · by_cases hp : isProtoProp k = false
        · rw [if_pos ⟨hloc, hk, hn, hp⟩]
          simp [hn, hk, hp]
        · have hp' : isProtoProp k = true := by
            cases hq : isProtoProp k
            · exact absurd hq hp
            · rfl
          rw [if_neg (fun h => hp h.2.2.2)]
          simp [hn, hk, hp']
      · rw [if_neg (fun h => hk h.2.1)]
        simp [hn, hk]
    · rw [if_neg (fun h => hn h.2.2.1)]
      have : (getVal (init loc) k).isSome := Option.isSome_iff_ne_none.mpr hn
      simp [this]
  · intro h
    unfold reconcile
    exact foldl_reconcileKey_data_of_present locales master ph loc keys _ h

theorem claim_C10_witness :
    (∀ k, (getVal
        ((reconcile [('a' :: []), ("toString".toList)] [('e' :: 'n' :: [])]
            ('e' :: 'n' :: []) .copy
            (fun _ => [(('b' :: []), ('x' :: []))])).data ('e' :: 'n' :: [])) k).isSome =
        ((getVal [(('b' :: []), ('x' :: []))] k).isSome ||
          (decide (k ∈ [('a' :: [] : JSStr), ("toString".toList)]) &&
            !isProtoProp k))) ∧
    ((∀ k ∈ [('a' :: [] : JSStr), ("toString".toList)],
        hasKey [(('b' :: []), ('x' :: []))] k = true) →
      (reconcile [('a' :: []), ("toString".toList)] [('e' :: 'n' :: [])]
          ('e' :: 'n' :: []) .copy
          (fun _ => [(('b' :: []), ('x' :: []))])).data ('e' :: 'n' :: []) =
        [(('b' :: []), ('x' :: []))]) :=
  claim_C10_keyset_union [('a' :: []), ("toString".toList)] [('e' :: 'n' :: [])]
    ('e' :: 'n' :: []) .copy (fun _ => [(('b' :: []), ('x' :: []))])
    ('e' :: 'n' :: []) (by decide)

/-- C10 (counterexample): with discovered key set `{"toString"}` and
an empty `"en"` dictionary, `"toString" in dict` is already true
through the prototype chain, so the program adds nothing: the final
key set does not contain `"toString"` although the union of the
existing and discovered key sets does. -/
theorem claim_C10_counterexample :
    (getVal
        ((reconcile [("toString".toList)] [('e' :: 'n' :: [])]
            ('e' :: 'n' :: []) .copy (fun _ => [])).data ('e' :: 'n' :: []))
        ("toString".toList)).isSome = false ∧
    ((getVal ([] : LocaleMap) ("toString".toList)).isSome ||
      decide (("toString".toList) ∈ [("toString".toList : JSStr)])) = true := by
  constructor
  · decide
  · decide

/-! ## C7: extracted keys never contain a newline -/

theorem mem_replacePair (a b r : Char) :
    ∀ (s : JSStr) (c : Char), c ∈ replacePair a b r s → c ∈ s ∨ c = r := by
  intro s
  induction s using replacePair.induct a b r with
  | case1 => intro c hc; cases hc
  | case2 x =>
    intro c hc
    left
    simpa [replacePair] using hc
  | case3 x d rest hab ih =>
    intro c hc
    rw [replacePair, if_pos hab] at hc
    rcases List.mem_cons.mp hc with h | h
    · right; exact h
    · rcases ih c h with h' | h'
      · left; exact List.mem_cons_of_mem _ (List.mem_cons_of_mem _ h')
      · right; exact h'
  | case4 x d rest hab ih =>
    intro c hc
    rw [replacePair, if_neg hab] at hc
    rcases List.mem_cons.mp hc with h | h
    · left; exact h ▸ List.mem_cons_self x _
    · rcases ih c h with h' | h'
      · left; exact List.mem_cons_of_mem _ h'
      · right; exact h'

theorem mem_unescapeString (s : JSStr) (c : Char) (hc : c ∈ unescapeString s) :
    c ∈ s ∨ c = '\'' ∨ c = '"' ∨ c = '\\' := by
  unfold unescapeString at hc
  rcases mem_replacePair _ _ _ _ _ hc with h1 | h1
  · rcases mem_replacePair _ _ _ _ _ h1 with h2 | h2
    · rcases mem_replacePair _ _ _ _ _ h2 with h3 | h3
      · exact Or.inl h3
      · exact Or.inr (Or.inl h3)
    · exact Or.inr (Or.inr (Or.inl h2))
  · exact Or.inr (Or.inr (Or.inr h1))

theorem no_newline_unescape (k : JSStr) (hk : '\n' ∉ k) :
    '\n' ∉ unescapeString k := by
  intro h
  rcases mem_unescapeString k '\n' h with h' | h' | h' | h' <;>
    first
      | exact hk h'
      | exact absurd h' (by decide)

theorem no_newline_addMatches (ms : List JSStr) :
    ∀ (ks : List JSStr), (∀ j ∈ ks, '\n' ∉ j) →
    ∀ j ∈ addMatches ks ms, '\n' ∉ j := by
  induction ms with
  | nil => intro ks h; exact h
  | cons m ms ih =>
    intro ks h
    rw [addMatches, List.foldl_cons]
    by_cases hg : m ≠ [] ∧ '\n' ∉ m
    · rw [if_pos hg]
      refine ih _ ?_
      intro j hj
      unfold insertKey at hj
      by_cases hmem : unescapeString m ∈ ks
      · rw [if_pos hmem] at hj
        exact h j hj
      · rw [if_neg hmem] at hj
        rcases List.mem_append.mp hj with h' | h'
        · exact h j h'
        · have : j = unescapeString m := by simpa using h'
          rw [this]
          exact no_newline_unescape m hg.2
    · rw [if_neg hg]
      exact ih ks h

/-- C7: no key returned by the extractor contains a literal newline;
a match whose captured content spans lines is dropped, and unescaping
cannot introduce a newline. -/
theorem claim_C7_no_newline_keys (source : JSStr) (k : JSStr)
    (hk : k ∈ extractKeys source) : '\n' ∉ k := by
  unfold extractKeys at hk
  refine no_newline_addMatches _ _ ?_ k hk
  refine no_newline_addMatches _ _ ?_
  refine no_newline_addMatches _ _ ?_
  intro j hj
  cases hj

theorem claim_C7_witness :
    ('a' :: [] : JSStr) ∈
      extractKeys ('_' :: '_' :: '(' :: '\'' :: 'a' :: '\'' :: ')' :: []) ∧
    '\n' ∉ ('a' :: [] : JSStr) :=
  ⟨by decide,
    claim_C7_no_newline_keys ('_' :: '_' :: '(' :: '\'' :: 'a' :: '\'' :: ')' :: [])
      ('a' :: []) (by decide)⟩

/-! ## C8: the three global replacements equal a single scan

The proof decomposes the input into a maximal leading run of
backslashes followed by a non-backslash character, and computes both
sides on such blocks. -/

theorem replacePair_cons_ne (a b r c : Char) (t : JSStr) (hc : c ≠ a) :
    replacePair a b r (c :: t) = c :: replacePair a b r t := by
  cases t with
  | nil => rfl
  | cons d rest =>
    rw [replacePair, if_neg (fun h => hc h.1)]

theorem replacePair_bs_replicate (b r : Char) (hb : b ≠ '\\') :
    ∀ n, replacePair '\\' b r (List.replicate n '\\') = List.replicate n '\\' := by
  intro n
  induction n using Nat.strong_induction_on with
  | _ n ih =>
    match n with
    | 0 => rfl
    | 1 => rfl
    | n + 2 =>
      rw [List.replicate_succ, List.replicate_succ]
      rw [replacePair, if_neg (fun h => hb h.2.symm)]
      rw [← List.replicate_succ, ih (n + 1) (by omega)]

theorem replacePair_bs_hit (b r : Char) (hb : b ≠ '\\') :
    ∀ n (v : JSStr), 1 ≤ n →
    replacePair '\\' b r (List.replicate n '\\' ++ b :: v) =
      List.replicate (n - 1) '\\' ++ r :: replacePair '\\' b r v := by
  intro n
  induction n with
  | zero => intro v h; omega
  | succ n ih =>
    intro v _
    cases n with
    | zero =>
      simp only [List.replicate_succ, List.replicate_zero, List.nil_append,
        List.cons_append]
      rw [replacePair, if_pos ⟨rfl, rfl⟩]
      simp
    | succ m =>
      rw [List.replicate_succ, List.cons_append]
      rw [List.replicate_succ, List.cons_append]
      rw [replacePair, if_neg (fun h => hb h.2.symm)]
      rw [← List.cons_append, ← List.replicate_succ, ih v (by omega)]
      have : m + 1 - 1 = m := by omega
      rw [this]
      have : m + 1 + 1 - 1 = m + 1 := by omega
      rw [this, List.replicate_succ, List.cons_append]

theorem replacePair_bs_other (b r : Char) (hb : b ≠ '\\') :
    ∀ n (c : Char) (v : JSStr), c ≠ '\\' → c ≠ b →
    replacePair '\\' b r (List.replicate n '\\' ++ c :: v) =
      List.replicate n '\\' ++ c :: replacePair '\\' b r v := by
  intro n
  induction n with
  | zero =>
    intro c v hc _
    simp only [List.replicate_zero, List.nil_append]
    exact replacePair_cons_ne _ _ _ _ _ hc
  | succ n ih =>
    intro c v hc hcb
    cases n with
    | zero =>
      simp only [List.replicate_succ, List.replicate_zero, List.nil_append,
        List.cons_append]
      rw [replacePair, if_neg (fun h => hcb h.2)]
      rw [replacePair_cons_ne _ _ _ _ _ hc]
    | succ m =>
      simp only [List.replicate_succ, List.cons_append]
      rw [replacePair, if_neg (fun h => hb h.2.symm)]
      have hih := ih c v hc hcb
      simp only [List.replicate_succ, List.cons_append] at hih
      rw [hih]

theorem replacePair_bsbs_replicate :
    ∀ n, replacePair '\\' '\\' '\\' (List.replicate n '\\') =
      List.replicate ((n + 1) / 2) '\\' := by
  intro n
  induction n using Nat.strong_induction_on with
  | _ n ih =>
    match n with
    | 0 => rfl
    | 1 => rfl
    | n + 2 =>
      simp only [List.replicate_succ]
      rw [replacePair, if_pos ⟨rfl, rfl⟩]
      rw [ih n (by omega)]
      have : (n + 2 + 1) / 2 = (n + 1) / 2 + 1 := by omega
      rw [this, List.replicate_succ]

theorem replacePair_bsbs_other :
    ∀ n (c : Char) (v : JSStr), c ≠ '\\' →
    replacePair '\\' '\\' '\\' (List.replicate n '\\' ++ c :: v) =
      List.replicate ((n + 1) / 2) '\\' ++ c ::
        replacePair '\\' '\\' '\\' v := by
  intro n
  induction n using Nat.strong_induction_on with
  | _ n ih =>
    match n with
    | 0 =>
      intro c v hc
      simp only [List.replicate_zero, List.nil_append, Nat.reduceDiv]
      exact replacePair_cons_ne _ _ _ _ _ hc
    | 1 =>
      intro c v hc
      simp only [List.replicate_succ, List.replicate_zero, List.nil_append,
        List.cons_append, Nat.reduceDiv]
      rw [replacePair, if_neg (fun h => hc h.2)]
      rw [replacePair_cons_ne _ _ _ _ _ hc]
    | n + 2 =>
      intro c v hc
      simp only [List.replicate_succ, List.cons_append]
      rw [replacePair, if_pos ⟨rfl, rfl⟩]
      rw [ih n (by omega) c v hc]
      have : (n + 2 + 1) / 2 = (n + 1) / 2 + 1 := by omega
      rw [this, List.replicate_succ, List.cons_append]

theorem refUnescape_cons_ne (c : Char) (t : JSStr) (hc : c ≠ '\\') :
    refUnescape (c :: t) = c :: refUnescape t := by
  conv_lhs => rw [refUnescape.eq_def]
  dsimp only
  rw [if_neg hc]

theorem refUnescape_bs_special (d : Char) (t : JSStr)
    (hd : d = '\'' ∨ d = '"' ∨ d = '\\') :
    refUnescape ('\\' :: d :: t) = d :: refUnescape t := by
  rw [refUnescape, if_pos rfl, if_pos hd]

theorem refUnescape_bs_other (d : Char) (t : JSStr)
    (hd : ¬ (d = '\'' ∨ d = '"' ∨ d = '\\')) :
    refUnescape ('\\' :: d :: t) = '\\' :: d :: refUnescape t := by
  rw [refUnescape, if_pos rfl, if_neg hd]

theorem refUnescape_replicate :
    ∀ n, refUnescape (List.replicate n '\\') =
      List.replicate ((n + 1) / 2) '\\' := by
  intro n
  induction n using Nat.strong_induction_on with
  | _ n ih =>
    match n with
    | 0 => rfl
    | 1 => rfl
    | n + 2 =>
      simp only [List.replicate_succ]
      rw [refUnescape_bs_special _ _ (Or.inr (Or.inr rfl))]
      rw [ih n (by omega)]
      have h2 : (n + 2 + 1) / 2 = (n + 1) / 2 + 1 := by omega
      rw [h2, List.replicate_succ]

theorem refUnescape_quote :
    ∀ n (c : Char) (v : JSStr), c = '\'' ∨ c = '"' →
    refUnescape (List.replicate n '\\' ++ c :: v) =
      List.replicate (n / 2) '\\' ++ c :: refUnescape v := by
  intro n
  induction n using Nat.strong_induction_on with
  | _ n ih =>
    match n with
    | 0 =>
      intro c v hq
      have hc : c ≠ '\\' := by
        rcases hq with h | h <;> rw [h] <;> decide
      simp only [List.replicate_zero, List.nil_append, Nat.reduceDiv]
      exact refUnescape_cons_ne _ _ hc
    | 1 =>
      intro c v hq
      simp only [List.replicate_succ, List.replicate_zero, List.nil_append,
        List.cons_append, Nat.reduceDiv]
      exact refUnescape_bs_special _ _ (by rcases hq with h | h <;> simp [h])
    | n + 2 =>
      intro c v hq
      simp only [List.replicate_succ, List.cons_append]
      rw [refUnescape_bs_special _ _ (Or.inr (Or.inr rfl))]
      rw [ih n (by omega) c v hq]
      have h2 : (n + 2) / 2 = n / 2 + 1 := by omega
      rw [h2, List.replicate_succ, List.cons_append]

theorem refUnescape_nonspecial :
    ∀ n (c : Char) (v : JSStr), c ≠ '\\' → c ≠ '\'' → c ≠ '"' →
    refUnescape (List.replicate n '\\' ++ c :: v) =
      List.replicate ((n + 1) / 2) '\\' ++ c :: refUnescape v := by
  intro n
  induction n using Nat.strong_induction_on with
  | _ n ih =>
    match n with
    | 0 =>
      intro c v hc _ _
      simp only [List.replicate_zero, List.nil_append, Nat.reduceDiv]
      exact refUnescape_cons_ne _ _ hc
    | 1 =>
      intro c v hc hq1 hq2
      simp only [List.replicate_succ, List.replicate_zero, List.nil_append,
        List.cons_append, Nat.reduceDiv]
      rw [refUnescape_bs_other _ _
        (by rintro (h | h | h) <;> [exact hq1 h; exact hq2 h; exact hc h])]
    | n + 2 =>
      intro c v hc hq1 hq2
      simp only [List.replicate_succ, List.cons_append]
      rw [refUnescape_bs_special _ _ (Or.inr (Or.inr rfl))]
      rw [ih n (by omega) c v hc hq1 hq2]
      have h2 : (n + 2 + 1) / 2 = (n + 1) / 2 + 1 := by omega
      rw [h2, List.replicate_succ, List.cons_append]

theorem unescapeString_cons_ne (c : Char) (t : JSStr) (hc : c ≠ '\\') :
    unescapeString (c :: t) = c :: unescapeString t := by
  unfold unescapeString
  rw [replacePair_cons_ne _ _ _ _ _ hc]
  rw [replacePair_cons_ne _ _ _ _ _ hc]
  rw [replacePair_cons_ne _ _ _ _ _ hc]

theorem unescapeString_replicate (n : Nat) :
    unescapeString (List.replicate n '\\') = List.replicate ((n + 1) / 2) '\\' := by
  unfold unescapeString
  rw [replacePair_bs_replicate _ _ (by decide) n]
  rw [replacePair_bs_replicate _ _ (by decide) n]
  rw [replacePair_bsbs_replicate n]

theorem unescapeString_block_squote (n : Nat) (v : JSStr) (hn : 1 ≤ n) :
    unescapeString (List.replicate n '\\' ++ '\'' :: v) =
      List.replicate (n / 2) '\\' ++ '\'' :: unescapeString v := by
  unfold unescapeString
  rw [replacePair_bs_hit _ _ (by decide) n v hn]
  rw [replacePair_bs_other _ _ (by decide) (n - 1) '\'' _ (by decide) (by decide)]
  rw [replacePair_bsbs_other (n - 1) '\'' _ (by decide)]
  have h2 : (n - 1 + 1) / 2 = n / 2 := by omega
  rw [h2]

theorem unescapeString_block_dquote (n : Nat) (v : JSStr) (hn : 1 ≤ n) :
    unescapeString (List.replicate n '\\' ++ '"' :: v) =
      List.replicate (n / 2) '\\' ++ '"' :: unescapeString v := by
  unfold unescapeString
  rw [replacePair_bs_other _ _ (by decide) n '"' _ (by decide) (by decide)]
  rw [replacePair_bs_hit _ _ (by decide) n _ hn]
  rw [replacePair_bsbs_other (n - 1) '"' _ (by decide)]
  have h2 : (n - 1 + 1) / 2 = n / 2 := by omega
  rw [h2]

theorem unescapeString_block_other (n : Nat) (c : Char) (v : JSStr)
    (hc : c ≠ '\\') (hq1 : c ≠ '\'') (hq2 : c ≠ '"') :
    unescapeString (List.replicate n '\\' ++ c :: v) =
      List.replicate ((n + 1) / 2) '\\' ++ c :: unescapeString v := by
  unfold unescapeString
  rw [replacePair_bs_other _ _ (by decide) n c _ hc hq1]
  rw [replacePair_bs_other _ _ (by decide) n c _ hc hq2]
  rw [replacePair_bsbs_other n c _ hc]

theorem dropWhile_head_eq_false (p : Char → Bool) :
    ∀ (l : List Char) (c : Char) (t : List Char),
    l.dropWhile p = c :: t → p c = false := by
  intro l
  induction l with
  | nil => intro c t h; cases h
  | cons a l ih =>
    intro c t h
    rw [List.dropWhile_cons] at h
    by_cases hp : p a
    · rw [if_pos hp] at h
      exact ih c t h
    · rw [if_neg hp] at h
      injection h with h1 _
      subst h1
      simpa using hp

theorem unescape_eq_refUnescape_aux :
    ∀ (N : Nat) (s : JSStr), s.length ≤ N →
    unescapeString s = refUnescape s := by
  intro N
  induction N with
  | zero =>
    intro s hs
    have h0 : s = [] := List.length_eq_zero.mp (Nat.le_zero.mp hs)
    subst h0
    rfl
  | succ N ih =>
    intro s hs
    have hsplit := List.takeWhile_append_dropWhile
      (p := fun c => c == '\\') (l := s)
    obtain ⟨n, hn⟩ : ∃ n, (s.takeWhile (fun c => c == '\\')).length = n :=
      ⟨_, rfl⟩
    have htake : s.takeWhile (fun c => c == '\\') = List.replicate n '\\' := by
      rw [← hn]
      apply List.eq_replicate_of_mem
      intro b hb
      have hpb := List.mem_takeWhile_imp hb
      simpa using hpb
    cases hdrop : s.dropWhile (fun c => c == '\\') with
    | nil =>
      have hs' : s = List.replicate n '\\' := by
        conv_lhs => rw [← hsplit, htake, hdrop]
        rw [List.append_nil]
      rw [hs', unescapeString_replicate, refUnescape_replicate]
    | cons c v =>
      have hc : ¬ c = '\\' := by
        have hcf := dropWhile_head_eq_false _ s c v hdrop
        simpa using hcf
      have hs' : s = List.replicate n '\\' ++ c :: v := by
        conv_lhs => rw [← hsplit, htake, hdrop]
      have hlen : v.length ≤ N := by
        have hslen : s.length = n + (v.length + 1) := by
          rw [hs']
          simp [List.length_append, List.length_replicate]
        omega
      have hv := ih v hlen
      rw [hs']
      by_cases hq1 : c = '\''
      · subst hq1
        cases n with
        | zero =>
          simp only [List.replicate_zero, List.nil_append]
          rw [unescapeString_cons_ne _ _ (by decide),
            refUnescape_cons_ne _ _ (by decide), hv]
        | succ m =>
          rw [unescapeString_block_squote _ _ (by omega),
            refUnescape_quote _ _ _ (Or.inl rfl), hv]
      · by_cases hq2 : c = '"'
        · subst hq2
          cases n with
          | zero =>
            simp only [List.replicate_zero, List.nil_append]
            rw [unescapeString_cons_ne _ _ (by decide),
              refUnescape_cons_ne _ _ (by decide), hv]
          | succ m =>
            rw [unescapeString_block_dquote _ _ (by omega),
              refUnescape_quote _ _ _ (Or.inr rfl), hv]
        · rw [unescapeString_block_other _ _ _ hc hq1 hq2,
            refUnescape_nonspecial _ _ _ hc hq1 hq2, hv]

/-- C8: the implementation's unescaping — three sequential global
replacements `\' → '`, then `\" → "`, then `\\ → \` — coincides on
every captured content string with a single left-to-right scan that
resolves the three escape sequences. -/
theorem claim_C8_unescape_left_to_right (s : JSStr) :
    unescapeString s = refUnescape s :=
  unescape_eq_refUnescape_aux s.length s (Nat.le_refl _)

/-! ## C1: backtick arguments containing `$`

Pattern 3 deliberately rejects backtick contents containing `$`, but
pattern 1 accepts the backtick as an ordinary quote character and
captures such contents, so the extractor does *not* return the empty
set on these calls. -/

theorem stripPrefix?_eq_some :
    ∀ (p s r : JSStr), stripPrefix? p s = some r → s = p ++ r := by
  intro p
  induction p with
  | nil =>
    intro s r h
    cases h
    rfl
  | cons x p ih =>
    intro s r h
    cases s with
    | nil => cases h
    | cons c cs =>
      rw [stripPrefix?] at h
      by_cases hc : c = x
      · rw [if_pos hc] at h
        rw [List.cons_append, ← ih cs r h, hc]
      · rw [if_neg hc] at h
        cases h

theorem stripCallHead_eq_some (s r : JSStr) (h : stripCallHead s = some r) :
    s = ['_', '_', '('] ++ r ∨ s = ['t', 'r', 'a', 'n', 's', '('] ++ r := by
  unfold stripCallHead at h
  cases h1 : stripPrefix? ['_', '_', '('] s with
  | some r1 =>
    rw [h1] at h
    cases h
    exact Or.inl (stripPrefix?_eq_some _ _ _ h1)
  | none =>
    rw [h1] at h
    exact Or.inr (stripPrefix?_eq_some _ _ _ h)

theorem takeUnits_clean (q : Char) (hqbs : q ≠ '\\') :
    ∀ (s t : JSStr),
    (∀ c ∈ s, c ≠ q ∧ c ≠ '\\' ∧ isLineTerm c = false) →
    takeUnits q (s ++ q :: t) = (s, q :: t) := by
  intro s
  induction s with
  | nil =>
    intro t _
    rw [List.nil_append]
    conv_lhs => rw [takeUnits.eq_def]
    dsimp only
    rw [if_neg hqbs, if_pos (Or.inl rfl)]
  | cons c s ih =>
    intro t hchars
    obtain ⟨hq, hbs, hlt⟩ := hchars c (List.mem_cons_self c s)
    rw [List.cons_append]
    conv_lhs => rw [takeUnits.eq_def]
    dsimp only
    rw [if_neg hbs, if_neg (by rw [hlt]; simpa using hq)]
    rw [ih t (fun d hd => hchars d (List.mem_cons_of_mem c hd))]

theorem replacePair_id (a b r : Char) :
    ∀ (s : JSStr), (∀ c ∈ s, c ≠ a) → replacePair a b r s = s := by
  intro s
  induction s using replacePair.induct a b r with
  | case1 => intro _; rfl
  | case2 x => intro _; rfl
  | case3 x d rest hab ih =>
    intro h
    exact absurd hab.1 (h x (List.mem_cons_self x _))
  | case4 x d rest hab ih =>
    intro h
    rw [replacePair, if_neg hab]
    rw [ih (fun c hc => h c (List.mem_cons_of_mem x hc))]

theorem unescapeString_id (s : JSStr) (h : ∀ c ∈ s, c ≠ '\\') :
    unescapeString s = s := by
  unfold unescapeString
  rw [replacePair_id _ _ _ s h, replacePair_id _ _ _ s h, replacePair_id _ _ _ s h]

theorem scanAllF_nil (m : JSStr → Option (JSStr × JSStr)) :
    ∀ fuel, scanAllF m fuel [] = [] := by
  intro fuel
  cases fuel <;> rfl

theorem scanAllF_eq_nil (m : JSStr → Option (JSStr × JSStr)) :
    ∀ (fuel : Nat) (t : JSStr), (∀ u, u <:+ t → m u = none) →
    scanAllF m fuel t = [] := by
  intro fuel
  induction fuel with
  | zero => intro t _; rfl
  | succ f ih =>
    intro t h
    cases t with
    | nil => rfl
    | cons c rest =>
      rw [scanAllF, h (c :: rest) (List.suffix_refl _)]
      exact ih rest (fun u hu => h u (hu.trans (List.suffix_cons c rest)))

theorem span_dollar :
    ∀ (s t : JSStr), '$' ∈ s → (∀ c ∈ s, c ≠ '`') →
    ∃ u r, (s ++ t).span (fun c => !(c == '`' || c == '$')) = (u, '$' :: r) := by
  intro s
  induction s with
  | nil => intro t h _; cases h
  | cons c s ih =>
    intro t hd hbt
    by_cases hc : c = '$'
    · refine ⟨[], s ++ t, ?_⟩
      rw [List.cons_append, List.span_eq_take_drop,
        List.takeWhile_cons, List.dropWhile_cons]
      subst hc
      simp
    · have hd' : '$' ∈ s := by
        rcases List.mem_cons.mp hd with h | h
        · exact absurd h.symm hc
        · exact h
      obtain ⟨u, r, hur⟩ := ih t hd' (fun d hdm => hbt d (List.mem_cons_of_mem c hdm))
      refine ⟨c :: u, r, ?_⟩
      rw [List.cons_append, List.span_eq_take_drop,
        List.takeWhile_cons, List.dropWhile_cons]
      rw [List.span_eq_take_drop] at hur
      have hptrue : (!(c == '`' || c == '$')) = true := by
        have := hbt c (List.mem_cons_self c s)
        simp [this, hc]
      have h1 := congrArg Prod.fst hur
      have h2 := congrArg Prod.snd hur
      simp only at h1 h2
      simp only [Bool.not_or] at h1 h2
      simp [hptrue, h1, h2]

theorem stripPrefix?_self (p : JSStr) : ∀ t, stripPrefix? p (p ++ t) = some t := by
  induction p with
  | nil => intro t; rfl
  | cons x p ih =>
    intro t
    rw [List.cons_append, stripPrefix?, if_pos rfl, ih]

theorem stripCallHead_us (t : JSStr) :
    stripCallHead ('_' :: '_' :: '(' :: t) = some t := by
  unfold stripCallHead
  rw [show ('_' :: '_' :: '(' :: t) = ['_', '_', '('] ++ t from rfl,
    stripPrefix?_self]

theorem matchP1At_template (s : JSStr) (hne : s ≠ [])
    (hchars : ∀ c ∈ s, c ≠ '`' ∧ c ≠ '\\' ∧ isLineTerm c = false) :
    matchP1At ('_' :: '_' :: '(' :: '`' :: (s ++ '`' :: ')' :: [])) =
      some (s, []) := by
  unfold matchP1At
  rw [stripCallHead_us]
  dsimp only
  rw [List.dropWhile_cons, if_neg (by decide)]
  dsimp only
  rw [if_pos (by decide)]
  unfold matchQuotedAt
  rw [takeUnits_clean '`' (by decide) s (')' :: []) hchars]
  dsimp only
  rw [if_neg hne, if_pos rfl]
  rw [List.dropWhile_cons, if_neg (by decide)]
  dsimp only
  rw [if_pos rfl]

theorem matchP2At_none_of_no_paren (u : JSStr) (h : '(' ∉ u) :
    matchP2At u = none := by
  unfold matchP2At
  cases hsp : stripPrefix? ['@', 'l', 'a', 'n', 'g', '('] u with
  | none => rfl
  | some r =>
    exfalso
    apply h
    rw [stripPrefix?_eq_some _ _ _ hsp]
    simp

theorem matchP1At_none_of_no_paren (u : JSStr) (h : '(' ∉ u) :
    matchP1At u = none := by
  unfold matchP1At
  cases hsp : stripCallHead u with
  | none => rfl
  | some r =>
    exfalso
    apply h
    rcases stripCallHead_eq_some _ _ hsp with h' | h' <;> rw [h'] <;> simp

theorem matchP3At_none_of_no_paren (u : JSStr) (h : '(' ∉ u) :
    matchP3At u = none := by
  unfold matchP3At
  cases hsp : stripCallHead u with
  | none => rfl
  | some r =>
    exfalso
    apply h
    rcases stripCallHead_eq_some _ _ hsp with h' | h' <;> rw [h'] <;> simp

theorem stripCallHead_us_paren (t : JSStr) :
    stripCallHead ('_' :: '(' :: t) = none := by
  unfold stripCallHead
  rw [stripPrefix?, if_pos rfl, stripPrefix?, if_neg (by decide)]
  rw [stripPrefix?, if_neg (by decide)]

theorem stripCallHead_paren (t : JSStr) :
    stripCallHead ('(' :: t) = none := by
  unfold stripCallHead
  rw [stripPrefix?, if_neg (by decide)]
  rw [stripPrefix?, if_neg (by decide)]

theorem stripCallHead_btick (t : JSStr) :
    stripCallHead ('`' :: t) = none := by
  unfold stripCallHead
  rw [stripPrefix?, if_neg (by decide)]
  rw [stripPrefix?, if_neg (by decide)]

theorem matchP3At_of_head_none (u : JSStr) (h : stripCallHead u = none) :
    matchP3At u = none := by
  unfold matchP3At
  rw [h]

theorem matchP2At_of_head_ne (c : Char) (t : JSStr) (h : c ≠ '@') :
    matchP2At (c :: t) = none := by
  unfold matchP2At
  rw [stripPrefix?, if_neg h]

theorem matchP3At_template (s : JSStr) (hdollar : '$' ∈ s)
    (hbt : ∀ c ∈ s, c ≠ '`') :
    matchP3At ('_' :: '_' :: '(' :: '`' :: (s ++ '`' :: ')' :: [])) = none := by
  unfold matchP3At
  rw [stripCallHead_us]
  dsimp only
  rw [List.dropWhile_cons, if_neg (by decide)]
  dsimp only
  rw [if_pos rfl]
  obtain ⟨u, r, hur⟩ := span_dollar s ('`' :: ')' :: []) hdollar hbt
  rw [hur]
  dsimp only
  by_cases hu : u = []
  · rw [if_pos hu]
  · rw [if_neg hu]
    rw [if_neg (by decide)]

/-- Every suffix of the backtick-call text fails patterns 2 and 3
(pattern 3 fails at the head because the content stops at `$`, and
everywhere else because no further `(` exists). -/
theorem suffix_matches_none (s : JSStr) (hdollar : '$' ∈ s)
    (hbt : ∀ c ∈ s, c ≠ '`' ∧ c ≠ '\\' ∧ c ≠ '(' ∧ isLineTerm c = false) :
    (∀ u, u <:+ ('_' :: '_' :: '(' :: '`' :: (s ++ '`' :: ')' :: [])) →
      matchP2At u = none) ∧
    (∀ u, u <:+ ('_' :: '_' :: '(' :: '`' :: (s ++ '`' :: ')' :: [])) →
      matchP3At u = none) := by
  have hnp : ∀ u, u <:+ (s ++ '`' :: ')' :: []) → '(' ∉ u := by
    intro u hu hmem
    have hsub := hu.subset hmem
    rcases List.mem_append.mp hsub with h | h
    · exact (hbt '(' h).2.2.1 rfl
    · simp at h
  constructor
  · intro u hu
    rcases List.suffix_cons_iff.mp hu with rfl | hu
    · exact matchP2At_of_head_ne _ _ (by decide)
    rcases List.suffix_cons_iff.mp hu with rfl | hu
    · exact matchP2At_of_head_ne _ _ (by decide)
    rcases List.suffix_cons_iff.mp hu with rfl | hu
    · exact matchP2At_of_head_ne _ _ (by decide)
    rcases List.suffix_cons_iff.mp hu with rfl | hu
    · exact matchP2At_of_head_ne _ _ (by decide)
    · exact matchP2At_none_of_no_paren u (hnp u hu)
  · intro u hu
    rcases List.suffix_cons_iff.mp hu with rfl | hu
    · exact matchP3At_template s hdollar (fun c hc => (hbt c hc).1)
    rcases List.suffix_cons_iff.mp hu with rfl | hu
    · exact matchP3At_of_head_none _ (stripCallHead_us_paren _)
    rcases List.suffix_cons_iff.mp hu with rfl | hu
    · exact matchP3At_of_head_none _ (stripCallHead_paren _)
    rcases List.suffix_cons_iff.mp hu with rfl | hu
    · exact matchP3At_of_head_none _ (stripCallHead_btick _)
    · exact matchP3At_none_of_no_paren u (hnp u hu)

theorem scanAll_template_P1 (s : JSStr) (hne : s ≠ [])
    (hchars : ∀ c ∈ s, c ≠ '`' ∧ c ≠ '\\' ∧ isLineTerm c = false) :
    scanAll matchP1At ('_' :: '_' :: '(' :: '`' :: (s ++ '`' :: ')' :: [])) =
      [s] := by
  unfold scanAll
  have hlen : ('_' :: '_' :: '(' :: '`' :: (s ++ '`' :: ')' :: [])).length =
      s.length + 6 := by
    simp [List.length_append]
  rw [hlen]
  rw [show s.length + 6 = (s.length + 5) + 1 from rfl, scanAllF]
  rw [matchP1At_template s hne hchars]
  dsimp only
  rw [scanAllF_nil]

/-- C1 (amended): for a source text consisting of one `__(...)` call
whose backtick-quoted argument contains `$` (and no backtick,
backslash, parenthesis or line terminator, so that no other call site
occurs in the text), the dedicated backtick pattern (pattern 3)
produces no match anywhere — but the general quoted-argument pattern
(pattern 1) still matches the call, so `extractKeys` returns the raw
template content as a key rather than the empty set. -/
theorem claim_C1_amended_dollar_templates (s : JSStr) (hne : s ≠ [])
    (hdollar : '$' ∈ s)
    (hbt : ∀ c ∈ s, c ≠ '`' ∧ c ≠ '\\' ∧ c ≠ '(' ∧ isLineTerm c = false) :
    extractKeys ('_' :: '_' :: '(' :: '`' :: (s ++ '`' :: ')' :: [])) = [s] ∧
    scanAll matchP3At ('_' :: '_' :: '(' :: '`' :: (s ++ '`' :: ')' :: [])) =
      [] := by
  obtain ⟨h2, h3⟩ := suffix_matches_none s hdollar hbt
  have hP2 : scanAll matchP2At
      ('_' :: '_' :: '(' :: '`' :: (s ++ '`' :: ')' :: [])) = [] :=
    scanAllF_eq_nil _ _ _ h2
  have hP3 : scanAll matchP3At
      ('_' :: '_' :: '(' :: '`' :: (s ++ '`' :: ')' :: [])) = [] :=
    scanAllF_eq_nil _ _ _ h3
  have hP1 : scanAll matchP1At
      ('_' :: '_' :: '(' :: '`' :: (s ++ '`' :: ')' :: [])) = [s] :=
    scanAll_template_P1 s hne (fun c hc => ⟨(hbt c hc).1, (hbt c hc).2.1,
      (hbt c hc).2.2.2⟩)
  refine ⟨?_, hP3⟩
  unfold extractKeys
  rw [hP1, hP2, hP3]
  have hnl : '\n' ∉ s := by
    intro hmem
    exact absurd ((hbt '\n' hmem).2.2.2) (by decide)
  have hguard : s ≠ [] ∧ '\n' ∉ s := ⟨hne, hnl⟩
  show addMatches (addMatches (addMatches [] [s]) []) [] = [s]
  unfold addMatches
  rw [List.foldl_cons, List.foldl_nil, List.foldl_nil, List.foldl_nil]
  rw [if_pos hguard]
  rw [unescapeString_id s (fun c hc => (hbt c hc).2.1)]
  unfold insertKey
  rw [if_neg (by simp)]
  rfl

theorem claim_C1_witness :
    (('a' :: '$' :: 'b' :: []) : JSStr) ≠ [] ∧
    extractKeys
        ('_' :: '_' :: '(' :: '`' :: 'a' :: '$' :: 'b' :: '`' :: ')' :: []) =
      [('a' :: '$' :: 'b' :: [])] := by
  refine ⟨by decide, ?_⟩
  have h := claim_C1_amended_dollar_templates ('a' :: '$' :: 'b' :: [])
    (by decide) (by decide) (by decide)
  exact h.1

/-- C1 (counterexample): the claim asserts that a `__`/`trans` call
with a backtick-quoted argument containing `$` yields the empty key
set; on the source text ``__(`a$b`)`` the extractor in fact returns
the key `a$b`. -/
theorem claim_C1_counterexample :
    extractKeys
        ('_' :: '_' :: '(' :: '`' :: 'a' :: '$' :: 'b' :: '`' :: ')' :: []) ≠
      [] := by
  decide

/-! ## C2: serialization — parsing back the serialized output -/

theorem parseHexDigit_digitChar (n : Nat) (h : n < 16) :
    parseHexDigit (Nat.digitChar n) = some n := by
  interval_cases n <;> decide

theorem parseStringBody_close (r : JSStr) :
    parseStringBody ('"' :: r) = some ([], r) := by
  conv_lhs => rw [parseStringBody.eq_def]
  dsimp only
  rw [if_pos rfl]

theorem parseStringBody_escape (e d : Char) (t s r : JSStr)
    (he : e ≠ 'u') (hmap : escMap e = some d)
    (hpt : parseStringBody t = some (s, r)) :
    parseStringBody ('\\' :: e :: t) = some (d :: s, r) := by
  conv_lhs => rw [parseStringBody.eq_def]
  dsimp only
  rw [if_neg (by decide), if_pos rfl, if_neg he, hmap]
  dsimp only
  rw [hpt]

theorem parseStringBody_u (h1 h2 h3 h4 : Char) (a b c' d : Nat) (t s r : JSStr)
    (ha : parseHexDigit h1 = some a) (hb : parseHexDigit h2 = some b)
    (hc : parseHexDigit h3 = some c') (hd : parseHexDigit h4 = some d)
    (hpt : parseStringBody t = some (s, r)) :
    parseStringBody ('\\' :: 'u' :: h1 :: h2 :: h3 :: h4 :: t) =
      some (Char.ofNat (4096 * a + 256 * b + 16 * c' + d) :: s, r) := by
  conv_lhs => rw [parseStringBody.eq_def]
  dsimp only
  rw [if_neg (by decide), if_pos rfl, if_pos rfl, ha, hb, hc, hd]
  dsimp only
  rw [hpt]

theorem parseStringBody_raw (c : Char) (t s r : JSStr)
    (h1 : c ≠ '"') (h2 : c ≠ '\\') (h3 : ¬ c.toNat < 0x20)
    (hpt : parseStringBody t = some (s, r)) :
    parseStringBody (c :: t) = some (c :: s, r) := by
  conv_lhs => rw [parseStringBody.eq_def]
  dsimp only
  rw [if_neg h1, if_neg h2, if_neg h3, hpt]

theorem parseStringBody_encode :
    ∀ (s r : JSStr),
    parseStringBody (s.flatMap encodeChar ++ '"' :: r) = some (s, r) := by
  intro s
  induction s with
  | nil =>
    intro r
    rw [List.flatMap_nil, List.nil_append]
    exact parseStringBody_close r
  | cons c s ih =>
    intro r
    rw [List.flatMap_cons, List.append_assoc]
    have htail := ih r
    by_cases h1 : c = '"'
    · subst h1
      rw [show encodeChar '"' = ['\\', '"'] from rfl]
      exact parseStringBody_escape _ _ _ _ _ (by decide) (by decide) htail
    by_cases h2 : c = '\\'
    · subst h2
      rw [show encodeChar '\\' = ['\\', '\\'] from rfl]
      exact parseStringBody_escape _ _ _ _ _ (by decide) (by decide) htail
    by_cases h3 : c = '\x08'
    · subst h3
      rw [show encodeChar '\x08' = ['\\', 'b'] from rfl]
      exact parseStringBody_escape _ _ _ _ _ (by decide) (by decide) htail
    by_cases h4 : c = '\t'
    · subst h4
      rw [show encodeChar '\t' = ['\\', 't'] from rfl]
      exact parseStringBody_escape _ _ _ _ _ (by decide) (by decide) htail
    by_cases h5 : c = '\n'
    · subst h5
      rw [show encodeChar '\n' = ['\\', 'n'] from rfl]
      exact parseStringBody_escape _ _ _ _ _ (by decide) (by decide) htail
    by_cases h6 : c = '\x0c'
    · subst h6
      rw [show encodeChar '\x0c' = ['\\', 'f'] from rfl]
      exact parseStringBody_escape _ _ _ _ _ (by decide) (by decide) htail
    by_cases h7 : c = '\r'
    · subst h7
      rw [show encodeChar '\r' = ['\\', 'r'] from rfl]
      exact parseStringBody_escape _ _ _ _ _ (by decide) (by decide) htail
    by_cases h8 : c.toNat < 0x20
    · rw [show encodeChar c =
          ['\\', 'u', '0', '0', Nat.digitChar (c.toNat / 16),
            Nat.digitChar (c.toNat % 16)] from by
        unfold encodeChar
        rw [if_neg h1, if_neg h2, if_neg h3, if_neg h4, if_neg h5, if_neg h6,
          if_neg h7, if_pos h8]]
      have hstep := parseStringBody_u '0' '0'
        (Nat.digitChar (c.toNat / 16)) (Nat.digitChar (c.toNat % 16))
        0 0 (c.toNat / 16) (c.toNat % 16) _ _ _
        (by decide) (by decide)
        (parseHexDigit_digitChar _ (by omega))
        (parseHexDigit_digitChar _ (by omega))
        htail
      simp only [List.cons_append, List.nil_append]
      rw [hstep]
      have hv : 4096 * 0 + 256 * 0 + 16 * (c.toNat / 16) + c.toNat % 16 =
          c.toNat := by omega
      rw [hv, Char.ofNat_toNat]
    · rw [show encodeChar c = [c] from by
        unfold encodeChar
        rw [if_neg h1, if_neg h2, if_neg h3, if_neg h4, if_neg h5, if_neg h6,
          if_neg h7, if_neg h8]]
      exact parseStringBody_raw c _ _ _ h1 h2 h8 htail

theorem memberLine_append (k v rest : JSStr) :
    memberLine (k, v) ++ rest =
      ' ' :: ' ' :: '"' ::
        (k.flatMap encodeChar ++ '"' :: ':' :: ' ' :: '"' ::
          (v.flatMap encodeChar ++ '"' :: rest)) := by
  simp [memberLine, encodeStr, List.append_assoc]

theorem parseMember_encoded (k v rest : JSStr) (u : JSStr)
    (hu : u.dropWhile isJsonWs =
      '"' :: (k.flatMap encodeChar ++ '"' :: ':' :: ' ' :: '"' ::
        (v.flatMap encodeChar ++ '"' :: rest))) :
    parseMember u = some ((k, v), rest) := by
  unfold parseMember
  rw [hu]
  dsimp only
  rw [if_pos rfl]
  rw [parseStringBody_encode k (':' :: ' ' :: '"' :: (v.flatMap encodeChar ++ '"' :: rest))]
  dsimp only
  rw [List.dropWhile_cons, if_neg (by decide)]
  dsimp only
  rw [if_pos rfl]
  rw [List.dropWhile_cons, if_pos (by decide), List.dropWhile_cons,
    if_neg (by decide)]
  dsimp only
  rw [if_pos rfl]
  rw [parseStringBody_encode v rest]

theorem membersTail_length (es : LocaleMap) :
    es.length ≤ (membersTail es).length := by
  induction es with
  | nil => exact Nat.le_refl _
  | cons e es ih =>
    rw [membersTail]
    simp only [List.length_cons, List.length_append]
    omega

theorem parseMembersRest_encoded :
    ∀ (es : LocaleMap) (suffix : JSStr) (fuel : Nat), es.length < fuel →
    parseMembersRest fuel (membersTail es ++ '\n' :: '}' :: suffix) =
      some (es, '}' :: suffix) := by
  intro es
  induction es with
  | nil =>
    intro suffix fuel hfuel
    cases fuel with
    | zero => omega
    | succ f =>
      rw [membersTail, List.nil_append]
      rw [parseMembersRest]
      rw [List.dropWhile_cons, if_pos (by decide), List.dropWhile_cons,
        if_neg (by decide)]
      dsimp only
      rw [if_neg (by decide)]
  | cons e es ih =>
    intro suffix fuel hfuel
    cases fuel with
    | zero => simp at hfuel
    | succ f =>
      obtain ⟨k, v⟩ := e
      have hmem : parseMember
          ('\n' :: (memberLine (k, v) ++
            (membersTail es ++ '\n' :: '}' :: suffix))) =
          some ((k, v), membersTail es ++ '\n' :: '}' :: suffix) := by
        apply parseMember_encoded
        rw [memberLine_append k v (membersTail es ++ '\n' :: '}' :: suffix)]
        rw [List.dropWhile_cons, if_pos (by decide), List.dropWhile_cons,
          if_pos (by decide), List.dropWhile_cons, if_pos (by decide),
          List.dropWhile_cons, if_neg (by decide)]
      rw [membersTail]
      rw [parseMembersRest]
      simp only [List.cons_append, List.append_assoc]
      rw [List.dropWhile_cons, if_neg (by decide)]
      dsimp only
      rw [if_pos rfl]
      rw [hmem]
      dsimp only
      rw [ih suffix f (by simp at hfuel; omega)]

theorem parseJsonObj_stringify (entries : LocaleMap) :
    parseJsonObj (jsonStringifyMap entries ++ ['\n']) = some entries := by
  cases entries with
  | nil => decide
  | cons e es =>
    obtain ⟨k, v⟩ := e
    have hdw : List.dropWhile isJsonWs
        ('\n' :: (memberLine (k, v) ++
          (membersTail es ++ '\n' :: '}' :: '\n' :: []))) =
        '"' :: (k.flatMap encodeChar ++ '"' :: ':' :: ' ' :: '"' ::
          (v.flatMap encodeChar ++ '"' ::
            (membersTail es ++ '\n' :: '}' :: '\n' :: []))) := by
      rw [memberLine_append k v (membersTail es ++ '\n' :: '}' :: '\n' :: [])]
      rw [List.dropWhile_cons, if_pos (by decide), List.dropWhile_cons,
        if_pos (by decide), List.dropWhile_cons, if_pos (by decide),
        List.dropWhile_cons, if_neg (by decide)]
    have hmem : parseMember
        ('"' :: (k.flatMap encodeChar ++ '"' :: ':' :: ' ' :: '"' ::
          (v.flatMap encodeChar ++ '"' ::
            (membersTail es ++ '\n' :: '}' :: '\n' :: [])))) =
        some ((k, v), membersTail es ++ '\n' :: '}' :: '\n' :: []) := by
      apply parseMember_encoded
      rw [List.dropWhile_cons, if_neg (by decide)]
    rw [jsonStringifyMap]
    unfold parseJsonObj
    simp only [List.cons_append, List.append_assoc, List.nil_append]
    rw [List.dropWhile_cons, if_neg (by decide)]
    dsimp only
    rw [if_pos rfl]
    rw [hdw]
    dsimp only
    rw [if_neg (by decide)]
    rw [hmem]
    dsimp only
    rw [parseMembersRest_encoded es ('\n' :: []) _
      (by
        simp only [List.length_append, List.length_cons]
        have := membersTail_length es
        omega)]
    dsimp only
    rw [List.dropWhile_cons, if_neg (by decide)]
    dsimp only
    rw [if_pos rfl]
    rw [if_pos (show List.dropWhile isJsonWs ['\n'] = [] by decide)]

/-- The serialized locale file parses back (under the JSON grammar)
to exactly the entries in JavaScript property order. -/
theorem parseJsonObj_serializeLocale (obj : LocaleMap) :
    parseJsonObj (serializeLocale obj) =
      some (propOrder (sortedEntries obj)) :=
  parseJsonObj_stringify (propOrder (sortedEntries obj))

/-! ## C2: the sort orders -/

theorem unitsLt_irrefl : ∀ x : List Nat, unitsLt x x = false := by
  intro x
  induction x with
  | nil => rfl
  | cons a as ih =>
    rw [unitsLt]
    simp [ih]

theorem unitsLt_trans :
    ∀ x y z : List Nat, unitsLt x y = true → unitsLt y z = true →
    unitsLt x z = true := by
  intro x
  induction x with
  | nil =>
    intro y z hxy hyz
    cases y with
    | nil => cases hxy
    | cons b bs =>
      cases z with
      | nil => cases hyz
      | cons c cs => rfl
  | cons a as ih =>
    intro y z hxy hyz
    cases y with
    | nil => cases hxy
    | cons b bs =>
      cases z with
      | nil => cases hyz
      | cons c cs =>
        rw [unitsLt] at hxy hyz ⊢
        simp only [Bool.or_eq_true, Bool.and_eq_true, decide_eq_true_eq,
          beq_iff_eq] at hxy hyz ⊢
        rcases hxy with h1 | ⟨h1e, h1r⟩
        · rcases hyz with h2 | ⟨h2e, h2r⟩
          · exact Or.inl (Nat.lt_trans h1 h2)
          · exact Or.inl (h2e ▸ h1)
        · rcases hyz with h2 | ⟨h2e, h2r⟩
          · exact Or.inl (h1e ▸ h2)
          · exact Or.inr ⟨h1e.trans h2e, ih bs cs h1r h2r⟩

theorem unitsLt_tricho :
    ∀ x y : List Nat, unitsLt x y = true ∨ x = y ∨ unitsLt y x = true := by
  intro x
  induction x with
  | nil =>
    intro y
    cases y with
    | nil => exact Or.inr (Or.inl rfl)
    | cons b bs => exact Or.inl rfl
  | cons a as ih =>
    intro y
    cases y with
    | nil => exact Or.inr (Or.inr rfl)
    | cons b bs =>
      rcases Nat.lt_trichotomy a b with hab | hab | hab
      · refine Or.inl ?_
        rw [unitsLt]
        simp [hab]
      · rcases ih bs with h | h | h
        · refine Or.inl ?_
          rw [unitsLt]
          simp [hab, h]
        · exact Or.inr (Or.inl (by rw [hab, h]))
        · refine Or.inr (Or.inr ?_)
          rw [unitsLt]
          simp [hab.symm, h]
      · refine Or.inr (Or.inr ?_)
        rw [unitsLt]
        simp [hab]

theorem unitsLt_asymm (x y : List Nat) (h1 : unitsLt x y = true)
    (h2 : unitsLt y x = true) : False := by
  have := unitsLt_trans x y x h1 h2
  rw [unitsLt_irrefl] at this
  cases this

instance jsLeKey_total : IsTotal JSStr jsLeKey := by
  constructor
  intro a b
  unfold jsLeKey
  by_cases h : jsLtKey b a = true
  · right
    intro h2
    exact unitsLt_asymm _ _ h2 h
  · left
    exact h

instance jsLeKey_trans : IsTrans JSStr jsLeKey := by
  constructor
  intro a b c hab hbc
  unfold jsLeKey jsLtKey at hab hbc ⊢
  intro hca
  rcases unitsLt_tricho (utf16 c) (utf16 b) with h | h | h
  · exact hbc h
  · exact hab (h ▸ hca)
  · exact hab (unitsLt_trans _ _ _ h hca)

instance idxLePair_total :
    IsTotal (JSStr × JSStr) (fun a b => idxLe a.1 b.1) := by
  constructor
  intro a b
  exact Nat.le_total (keyNat a.1) (keyNat b.1)

instance idxLePair_trans :
    IsTrans (JSStr × JSStr) (fun a b => idxLe a.1 b.1) := by
  constructor
  intro a b c hab hbc
  exact Nat.le_trans hab hbc

/-! Injectivity of the UTF-16 encoding. -/

theorem charUtf16_inj_append (c c' : Char) (r r' : List Nat)
    (h : charUtf16 c ++ r = charUtf16 c' ++ r') : c = c' ∧ r = r' := by
  have hv : c.toNat < 0xd800 ∨ (0xe000 ≤ c.toNat ∧ c.toNat < 0x110000) := c.valid
  have hv' : c'.toNat < 0xd800 ∨ (0xe000 ≤ c'.toNat ∧ c'.toNat < 0x110000) :=
    c'.valid
  unfold charUtf16 at h
  by_cases h1 : c.toNat < 0x10000
  · by_cases h2 : c'.toNat < 0x10000
    · rw [if_pos h1, if_pos h2] at h
      simp only [List.cons_append, List.nil_append, List.cons.injEq] at h
      obtain ⟨he, hr⟩ := h
      refine ⟨?_, hr⟩
      have := congrArg Char.ofNat he
      rwa [Char.ofNat_toNat, Char.ofNat_toNat] at this
    · rw [if_pos h1, if_neg h2] at h
      simp only [List.cons_append, List.nil_append, List.cons.injEq] at h
      obtain ⟨he, _⟩ := h
      exfalso
      omega
  · by_cases h2 : c'.toNat < 0x10000
    · rw [if_neg h1, if_pos h2] at h
      simp only [List.cons_append, List.nil_append, List.cons.injEq] at h
      obtain ⟨he, _⟩ := h
      exfalso
      omega
    · rw [if_neg h1, if_neg h2] at h
      simp only [List.cons_append, List.nil_append, List.cons.injEq] at h
      obtain ⟨hhi, hlo, hr⟩ := h
      refine ⟨?_, hr⟩
      have he : c.toNat = c'.toNat := by omega
      have := congrArg Char.ofNat he
      rwa [Char.ofNat_toNat, Char.ofNat_toNat] at this

theorem utf16_inj : ∀ a b : JSStr, utf16 a = utf16 b → a = b := by
  intro a
  induction a with
  | nil =>
    intro b h
    cases b with
    | nil => rfl
    | cons c bs =>
      exfalso
      rw [utf16, utf16, List.flatMap_nil, List.flatMap_cons] at h
      unfold charUtf16 at h
      by_cases h1 : c.toNat < 0x10000 <;> simp [h1] at h
  | cons c as ih =>
    intro b h
    cases b with
    | nil =>
      exfalso
      rw [utf16, utf16, List.flatMap_nil, List.flatMap_cons] at h
      unfold charUtf16 at h
      by_cases h1 : c.toNat < 0x10000 <;> simp [h1] at h
    | cons c' bs =>
      rw [utf16, utf16, List.flatMap_cons, List.flatMap_cons] at h
      obtain ⟨hc, hr⟩ := charUtf16_inj_append c c' _ _ h
      rw [hc, ih bs hr]

theorem jsLtKey_of_le_of_ne (a b : JSStr) (hle : jsLeKey a b) (hne : a ≠ b) :
    jsLtKey a b = true := by
  unfold jsLeKey at hle
  unfold jsLtKey at hle ⊢
  rcases unitsLt_tricho (utf16 a) (utf16 b) with h | h | h
  · exact h
  · exact absurd (utf16_inj a b h) hne
  · exact absurd h hle

/-! Injectivity of the numeric value on canonical digit strings. -/

theorem keyNat_eq_ofDigits :
    ∀ (s : JSStr) (acc : Nat),
    s.foldl (fun acc c => 10 * acc + (c.toNat - 48)) acc =
      acc * 10 ^ s.length +
        Nat.ofDigits 10 (s.map (fun c => c.toNat - 48)).reverse := by
  intro s
  induction s with
  | nil =>
    intro acc
    simp [Nat.ofDigits_nil]
  | cons c t ih =>
    intro acc
    rw [List.foldl_cons, ih]
    rw [List.map_cons, List.reverse_cons, Nat.ofDigits_append]
    simp only [Nat.ofDigits_cons, Nat.ofDigits_nil, List.length_reverse,
      List.length_map, List.length_cons]
    ring

theorem isArrayIndexKey_props (s : JSStr) (h : isArrayIndexKey s = true) :
    s ≠ [] ∧ (∀ c ∈ s, isDigitChar c = true) ∧
      (s = ['0'] ∨ s.head? ≠ some '0') := by
  unfold isArrayIndexKey at h
  simp only [Bool.and_eq_true, decide_eq_true_eq, List.all_eq_true,
    Bool.or_eq_true, bne_iff_ne, ne_eq] at h
  exact ⟨h.1.1.1, fun c hc => h.1.1.2 c hc, by
    rcases h.1.2 with h' | h'
    · exact Or.inl h'
    · exact Or.inr h'⟩

theorem digit_val_lt (c : Char) (h : isDigitChar c = true) :
    c.toNat - 48 < 10 ∧ 48 ≤ c.toNat := by
  unfold isDigitChar at h
  simp only [Bool.and_eq_true, decide_eq_true_eq] at h
  obtain ⟨h1, h2⟩ := h
  have hlo : (48 : Nat) ≤ c.toNat := h1
  have hhi : c.toNat ≤ 57 := h2
  omega

theorem digit_char_inj (c c' : Char) (hc : isDigitChar c = true)
    (hc' : isDigitChar c' = true) (h : c.toNat - 48 = c'.toNat - 48) :
    c = c' := by
  obtain ⟨_, hlo⟩ := digit_val_lt c hc
  obtain ⟨_, hlo'⟩ := digit_val_lt c' hc'
  have he : c.toNat = c'.toNat := by omega
  have := congrArg Char.ofNat he
  rwa [Char.ofNat_toNat, Char.ofNat_toNat] at this

theorem map_digit_val_inj :
    ∀ (a b : JSStr), (∀ c ∈ a, isDigitChar c = true) →
    (∀ c ∈ b, isDigitChar c = true) →
    a.map (fun c => c.toNat - 48) = b.map (fun c => c.toNat - 48) →
    a = b := by
  intro a
  induction a with
  | nil =>
    intro b _ _ h
    cases b with
    | nil => rfl
    | cons c bs => cases h
  | cons c as ih =>
    intro b hda hdb h
    cases b with
    | nil => cases h
    | cons c' bs =>
      rw [List.map_cons, List.map_cons] at h
      injection h with h1 h2
      rw [digit_char_inj c c' (hda c (List.mem_cons_self c as))
        (hdb c' (List.mem_cons_self c' bs)) h1]
      rw [ih bs (fun d hd => hda d (List.mem_cons_of_mem c hd))
        (fun d hd => hdb d (List.mem_cons_of_mem c' hd)) h2]

theorem canonical_digits_getLast (s : JSStr) (hne : s ≠ [])
    (hd : ∀ c ∈ s, isDigitChar c = true) (hh : s.head? ≠ some '0') :
    ∀ (h : (s.map (fun c => c.toNat - 48)).reverse ≠ []),
    ((s.map (fun c => c.toNat - 48)).reverse).getLast h ≠ 0 := by
  intro h
  cases s with
  | nil => exact absurd rfl hne
  | cons c t =>
    have hsome : ((c :: t).map (fun c => c.toNat - 48)).reverse.getLast? =
        some (c.toNat - 48) := by
      rw [List.map_cons, List.reverse_cons]
      exact List.getLast?_concat _
    have hform := List.getLast?_eq_getLast_of_ne_nil h
    rw [hform] at hsome
    rw [Option.some.inj hsome]
    have hc := hd c (List.mem_cons_self c t)
    obtain ⟨_, hlo⟩ := digit_val_lt c hc
    intro hzero
    apply hh
    have hc48 : c.toNat = 48 := by omega
    have hc0 : c = '0' := by
      have := congrArg Char.ofNat hc48
      rwa [Char.ofNat_toNat] at this
    rw [hc0]
    rfl

theorem keyNat_inj_canonical (a b : JSStr)
    (ha : isArrayIndexKey a = true) (hb : isArrayIndexKey b = true)
    (h : keyNat a = keyNat b) : a = b := by
  obtain ⟨hane, had, hah⟩ := isArrayIndexKey_props a ha
  obtain ⟨hbne, hbd, hbh⟩ := isArrayIndexKey_props b hb
  have hka : keyNat a =
      Nat.ofDigits 10 (a.map (fun c => c.toNat - 48)).reverse := by
    unfold keyNat
    rw [keyNat_eq_ofDigits]
    simp
  have hkb : keyNat b =
      Nat.ofDigits 10 (b.map (fun c => c.toNat - 48)).reverse := by
    unfold keyNat
    rw [keyNat_eq_ofDigits]
    simp
  have hdigits : ∀ (s : JSStr), (∀ c ∈ s, isDigitChar c = true) →
      ∀ d ∈ (s.map (fun c => c.toNat - 48)).reverse, d < 10 := by
    intro s hs d hdm
    rw [List.mem_reverse, List.mem_map] at hdm
    obtain ⟨c, hcm, hcv⟩ := hdm
    rw [← hcv]
    exact (digit_val_lt c (hs c hcm)).1
  by_cases ha0 : a = ['0']
  · by_cases hb0 : b = ['0']
    · rw [ha0, hb0]
    · exfalso
      have hbh' : b.head? ≠ some '0' := hbh.resolve_left hb0
      have hgl := canonical_digits_getLast b hbne hbd hbh'
      have hbnil : (b.map (fun c => c.toNat - 48)).reverse ≠ [] := by
        simp [hbne]
      have hdig := Nat.digits_ofDigits 10 (by omega)
        ((b.map (fun c => c.toNat - 48)).reverse) (hdigits b hbd)
        (fun _ => hgl hbnil)
      rw [ha0] at h
      have hz : keyNat b = 0 := by
        rw [← h]
        rfl
      rw [hkb] at hz
      rw [hz] at hdig
      simp only [Nat.digits_zero] at hdig
      exact hbnil hdig.symm
  · by_cases hb0 : b = ['0']
    · exfalso
      have hah' : a.head? ≠ some '0' := hah.resolve_left ha0
      have hgl := canonical_digits_getLast a hane had hah'
      have hanil : (a.map (fun c => c.toNat - 48)).reverse ≠ [] := by
        simp [hane]
      have hdig := Nat.digits_ofDigits 10 (by omega)
        ((a.map (fun c => c.toNat - 48)).reverse) (hdigits a had)
        (fun _ => hgl hanil)
      rw [hb0] at h
      have hz : keyNat a = 0 := by
        rw [h]
        rfl
      rw [hka] at hz
      rw [hz] at hdig
      simp only [Nat.digits_zero] at hdig
      exact hanil hdig.symm
    · have hah' : a.head? ≠ some '0' := hah.resolve_left ha0
      have hbh' : b.head? ≠ some '0' := hbh.resolve_left hb0
      have hanil : (a.map (fun c => c.toNat - 48)).reverse ≠ [] := by
        simp [hane]
      have hbnil : (b.map (fun c => c.toNat - 48)).reverse ≠ [] := by
        simp [hbne]
      have hdiga := Nat.digits_ofDigits 10 (by omega)
        ((a.map (fun c => c.toNat - 48)).reverse) (hdigits a had)
        (fun _ => canonical_digits_getLast a hane had hah' hanil)
      have hdigb := Nat.digits_ofDigits 10 (by omega)
        ((b.map (fun c => c.toNat - 48)).reverse) (hdigits b hbd)
        (fun _ => canonical_digits_getLast b hbne hbd hbh' hbnil)
      rw [hka, hkb] at h
      rw [h] at hdiga
      have hrev : (a.map (fun c => c.toNat - 48)).reverse =
          (b.map (fun c => c.toNat - 48)).reverse :=
        hdiga.symm.trans hdigb
      have hmap := List.reverse_injective hrev
      exact map_digit_val_inj a b had hbd hmap

/-- The relation between adjacent keys in a JavaScript object's
property order: array-index keys come first in ascending numeric
order, followed by the remaining keys, here in ascending string
order. -/
def jsPropOrderRel (a b : JSStr) : Prop :=
  (isArrayIndexKey a = true ∧ isArrayIndexKey b = true ∧ keyNat a < keyNat b) ∨
  (isArrayIndexKey a = true ∧ isArrayIndexKey b = false) ∨
  (isArrayIndexKey a = false ∧ isArrayIndexKey b = false ∧ jsLtKey a b = true)

instance : DecidableRel jsPropOrderRel := fun _ _ =>
  inferInstanceAs (Decidable (_ ∨ _ ∨ _))

theorem sortedEntries_keys (obj : LocaleMap) :
    (sortedEntries obj).map Prod.fst =
      ((obj.map Prod.fst).insertionSort jsLeKey).filter
        (fun k => k != protoKey) := by
  unfold sortedEntries
  rw [List.map_map]
  exact List.map_id' _

theorem sortedEntries_keys_nodup (obj : LocaleMap)
    (hnd : (obj.map Prod.fst).Nodup) :
    ((sortedEntries obj).map Prod.fst).Nodup := by
  rw [sortedEntries_keys]
  exact (List.filter_sublist _).nodup
    (hnd.perm (List.perm_insertionSort jsLeKey (obj.map Prod.fst)).symm)

theorem sortedEntries_pairwise (obj : LocaleMap)
    (hnd : (obj.map Prod.fst).Nodup) :
    List.Pairwise (fun e e' : JSStr × JSStr => jsLtKey e.1 e'.1 = true)
      (sortedEntries obj) := by
  have hsorted : List.Sorted jsLeKey ((sortedEntries obj).map Prod.fst) := by
    rw [sortedEntries_keys]
    exact List.Pairwise.sublist (List.filter_sublist _)
      (List.sorted_insertionSort jsLeKey (obj.map Prod.fst))
  have hnodup := sortedEntries_keys_nodup obj hnd
  have hpair : List.Pairwise (fun a b : JSStr => jsLtKey a b = true)
      ((sortedEntries obj).map Prod.fst) := by
    refine (List.Pairwise.and hsorted hnodup).imp ?_
    intro a b ⟨hle, hne⟩
    exact jsLtKey_of_le_of_ne a b hle hne
  exact List.pairwise_map.mp hpair

theorem propOrder_others_pairwise (obj : LocaleMap)
    (hnd : (obj.map Prod.fst).Nodup) :
    List.Pairwise (fun e e' : JSStr × JSStr => jsLtKey e.1 e'.1 = true)
      ((sortedEntries obj).filter (fun e => !isArrayIndexKey e.1)) :=
  List.Pairwise.sublist (List.filter_sublist _) (sortedEntries_pairwise obj hnd)

theorem propOrder_num_pairwise (obj : LocaleMap)
    (hnd : (obj.map Prod.fst).Nodup) :
    List.Pairwise (fun e e' : JSStr × JSStr =>
        isArrayIndexKey e.1 = true ∧ isArrayIndexKey e'.1 = true ∧
          keyNat e.1 < keyNat e'.1)
      (((sortedEntries obj).filter
          (fun e => isArrayIndexKey e.1)).insertionSort
        (fun a b => idxLe a.1 b.1)) := by
  have hmemnum : ∀ e ∈ ((sortedEntries obj).filter
      (fun e => isArrayIndexKey e.1)).insertionSort
        (fun a b => idxLe a.1 b.1), isArrayIndexKey e.1 = true := by
    intro e he
    have := (List.perm_insertionSort (fun a b : JSStr × JSStr => idxLe a.1 b.1)
      _).mem_iff.mp he
    exact (List.mem_filter.mp this).2
  have hsorted : List.Sorted (fun a b : JSStr × JSStr => idxLe a.1 b.1)
      (((sortedEntries obj).filter
          (fun e => isArrayIndexKey e.1)).insertionSort
        (fun a b => idxLe a.1 b.1)) :=
    List.sorted_insertionSort _ _
  have hkeysnodup : ((((sortedEntries obj).filter
      (fun e => isArrayIndexKey e.1)).insertionSort
        (fun a b => idxLe a.1 b.1)).map Prod.fst).Nodup := by
    have h1 : (((sortedEntries obj).filter
        (fun e => isArrayIndexKey e.1)).map Prod.fst).Nodup :=
      ((List.filter_sublist _).map Prod.fst).nodup
        (sortedEntries_keys_nodup obj hnd)
    exact h1.perm ((List.perm_insertionSort _ _).map Prod.fst).symm
  have hpairne : List.Pairwise
      (fun e e' : JSStr × JSStr => e.1 ≠ e'.1)
      (((sortedEntries obj).filter
          (fun e => isArrayIndexKey e.1)).insertionSort
        (fun a b => idxLe a.1 b.1)) :=
    List.pairwise_map.mp hkeysnodup
  refine (List.Pairwise.and hsorted hpairne).imp_of_mem ?_
  intro e e' he he' ⟨hle, hne⟩
  have ha := hmemnum e he
  have hb := hmemnum e' he'
  refine ⟨ha, hb, ?_⟩
  rcases Nat.lt_or_ge (keyNat e.1) (keyNat e'.1) with h | h
  · exact h
  · exfalso
    have heq : keyNat e.1 = keyNat e'.1 := Nat.le_antisymm hle h
    exact hne (keyNat_inj_canonical e.1 e'.1 ha hb heq)

theorem propOrder_keys_chain (obj : LocaleMap)
    (hnd : (obj.map Prod.fst).Nodup) :
    List.Chain' jsPropOrderRel ((propOrder (sortedEntries obj)).map Prod.fst) := by
  unfold propOrder
  rw [List.map_append]
  rw [List.chain'_append]
  refine ⟨?_, ?_, ?_⟩
  · refine List.Pairwise.chain' ?_
    refine List.pairwise_map.mpr ?_
    refine (propOrder_num_pairwise obj hnd).imp ?_
    intro e e' h
    exact Or.inl h
  · refine List.Pairwise.chain' ?_
    refine List.pairwise_map.mpr ?_
    have hmem : ∀ e ∈ (sortedEntries obj).filter
        (fun e => !isArrayIndexKey e.1), isArrayIndexKey e.1 = false := by
      intro e he
      have := (List.mem_filter.mp he).2
      simpa using this
    refine (propOrder_others_pairwise obj hnd).imp_of_mem ?_
    intro e e' he he' h
    exact Or.inr (Or.inr ⟨hmem e he, hmem e' he', h⟩)
  · intro x hx y hy
    have hxmem : x ∈ (((sortedEntries obj).filter
        (fun e => isArrayIndexKey e.1)).insertionSort
          (fun a b => idxLe a.1 b.1)).map Prod.fst := by
      obtain ⟨hne, hxl⟩ := List.mem_getLast?_eq_getLast hx
      rw [hxl]
      exact List.getLast_mem hne
    have hymem : y ∈ ((sortedEntries obj).filter
        (fun e => !isArrayIndexKey e.1)).map Prod.fst :=
      List.mem_of_mem_head? hy
    obtain ⟨ex, hexm, hexv⟩ := List.mem_map.mp hxmem
    obtain ⟨ey, heym, heyv⟩ := List.mem_map.mp hymem
    have hxnum : isArrayIndexKey x = true := by
      rw [← hexv]
      have := (List.perm_insertionSort
        (fun a b : JSStr × JSStr => idxLe a.1 b.1) _).mem_iff.mp hexm
      exact (List.mem_filter.mp this).2
    have hynum : isArrayIndexKey y = false := by
      rw [← heyv]
      have := (List.mem_filter.mp heym).2
      simpa using this
    exact Or.inr (Or.inl ⟨hxnum, hynum⟩)

theorem propOrder_keys_chain_lex (obj : LocaleMap)
    (hnd : (obj.map Prod.fst).Nodup)
    (hnonum : ∀ k ∈ (propOrder (sortedEntries obj)).map Prod.fst,
      isArrayIndexKey k = false) :
    List.Chain' (fun a b => jsLtKey a b = true)
      ((propOrder (sortedEntries obj)).map Prod.fst) := by
  have hnum_nil : ((sortedEntries obj).filter
      (fun e => isArrayIndexKey e.1)).insertionSort
        (fun a b => idxLe a.1 b.1) = [] := by
    by_contra hne
    obtain ⟨e, he⟩ := List.exists_mem_of_ne_nil _ hne
    have hmem : isArrayIndexKey e.1 = true := by
      have := (List.perm_insertionSort
        (fun a b : JSStr × JSStr => idxLe a.1 b.1) _).mem_iff.mp he
      exact (List.mem_filter.mp this).2
    have hkey : e.1 ∈ (propOrder (sortedEntries obj)).map Prod.fst := by
      unfold propOrder
      rw [List.map_append]
      exact List.mem_append.mpr (Or.inl (List.mem_map_of_mem Prod.fst he))
    rw [hnonum e.1 hkey] at hmem
    cases hmem
  unfold propOrder
  rw [hnum_nil, List.nil_append]
  refine List.Pairwise.chain' ?_
  refine List.pairwise_map.mpr ?_
  exact propOrder_others_pairwise obj hnd

/-! ## C2: line structure of the serialized output -/

theorem splitNl_append_line (m : JSStr) (hm : '\n' ∉ m) :
    ∀ rest, splitNl (m ++ '\n' :: rest) = m :: splitNl rest := by
  induction m with
  | nil =>
    intro rest
    rw [List.nil_append, splitNl, if_pos rfl]
  | cons c t ih =>
    intro rest
    have hc : c ≠ '\n' := fun h => hm (h ▸ List.mem_cons_self c t)
    have ht : '\n' ∉ t := fun h => hm (List.mem_cons_of_mem c h)
    rw [List.cons_append, splitNl, if_neg hc, ih ht rest]

theorem digitChar_ne_nl (n : Nat) (h : n < 16) : Nat.digitChar n ≠ '\n' := by
  interval_cases n <;> decide

theorem encodeChar_no_nl (c : Char) : ∀ d ∈ encodeChar c, d ≠ '\n' := by
  intro d hd
  unfold encodeChar at hd
  by_cases h1 : c = '"'
  · rw [if_pos h1] at hd
    simp only [List.mem_cons, List.not_mem_nil, or_false] at hd
    rcases hd with h | h <;> (rw [h]; decide)
  rw [if_neg h1] at hd
  by_cases h2 : c = '\\'
  · rw [if_pos h2] at hd
    simp only [List.mem_cons, List.not_mem_nil, or_false] at hd
    rcases hd with h | h <;> (rw [h]; decide)
  rw [if_neg h2] at hd
  by_cases h3 : c = '\x08'
  · rw [if_pos h3] at hd
    simp only [List.mem_cons, List.not_mem_nil, or_false] at hd
    rcases hd with h | h <;> (rw [h]; decide)
  rw [if_neg h3] at hd
  by_cases h4 : c = '\t'
  · rw [if_pos h4] at hd
    simp only [List.mem_cons, List.not_mem_nil, or_false] at hd
    rcases hd with h | h <;> (rw [h]; decide)
  rw [if_neg h4] at hd
  by_cases h5 : c = '\n'
  · rw [if_pos h5] at hd
    simp only [List.mem_cons, List.not_mem_nil, or_false] at hd
    rcases hd with h | h <;> (rw [h]; decide)
  rw [if_neg h5] at hd
  by_cases h6 : c = '\x0c'
  · rw [if_pos h6] at hd
    simp only [List.mem_cons, List.not_mem_nil, or_false] at hd
    rcases hd with h | h <;> (rw [h]; decide)
  rw [if_neg h6] at hd
  by_cases h7 : c = '\r'
  · rw [if_pos h7] at hd
    simp only [List.mem_cons, List.not_mem_nil, or_false] at hd
    rcases hd with h | h <;> (rw [h]; decide)
  rw [if_neg h7] at hd
  by_cases h8 : c.toNat < 0x20
  · rw [if_pos h8] at hd
    simp only [List.mem_cons, List.not_mem_nil, or_false] at hd
    rcases hd with h | h | h | h | h | h
    · rw [h]; decide
    · rw [h]; decide
    · rw [h]; decide
    · rw [h]; decide
    · rw [h]; exact digitChar_ne_nl _ (by omega)
    · rw [h]; exact digitChar_ne_nl _ (by omega)
  · rw [if_neg h8] at hd
    simp only [List.mem_cons, List.not_mem_nil, or_false] at hd
    rw [hd]
    intro hcn
    rw [hcn] at h8
    exact h8 (by decide)

theorem encodeStr_no_nl (x : JSStr) : '\n' ∉ encodeStr x := by
  intro h
  unfold encodeStr at h
  rcases List.mem_cons.mp h with h | h
  · exact absurd h (by decide)
  · rcases List.mem_append.mp h with h | h
    · obtain ⟨c, _, hc⟩ := List.mem_flatMap.mp h
      exact encodeChar_no_nl c '\n' hc rfl
    · simp at h

theorem memberLine_no_nl (e : JSStr × JSStr) : '\n' ∉ memberLine e := by
  intro h
  unfold memberLine at h
  rcases List.mem_append.mp h with h | h
  · rcases List.mem_cons.mp h with h | h
    · exact absurd h (by decide)
    rcases List.mem_cons.mp h with h | h
    · exact absurd h (by decide)
    · exact encodeStr_no_nl e.1 h
  · rcases List.mem_cons.mp h with h | h
    · exact absurd h (by decide)
    rcases List.mem_cons.mp h with h | h
    · exact absurd h (by decide)
    · exact encodeStr_no_nl e.2 h

/-- The sequence of body lines of the serialized object: the current
line, then one line per remaining member, each previous line extended
with the separating comma. -/
def memberLinesOf (m : JSStr) : LocaleMap → List JSStr
  | [] => [m]
  | e :: es => (m ++ [',']) :: memberLinesOf (memberLine e) es

theorem memberLinesOf_take2 :
    ∀ (es : LocaleMap) (m : JSStr), m.take 2 = [' ', ' '] →
    ∀ line ∈ memberLinesOf m es, line.take 2 = [' ', ' '] := by
  intro es
  induction es with
  | nil =>
    intro m hm line hline
    rw [memberLinesOf] at hline
    simp only [List.mem_cons, List.not_mem_nil, or_false] at hline
    rw [hline]
    exact hm
  | cons e es ih =>
    intro m hm line hline
    rw [memberLinesOf] at hline
    rcases List.mem_cons.mp hline with h | h
    · have hlen : 2 ≤ m.length := by
        have htl := congrArg List.length hm
        rw [List.length_take] at htl
        simp only [List.length_cons, List.length_nil] at htl
        omega
      rw [h, List.take_append_of_le_length hlen, hm]
    · refine ih (memberLine e) ?_ line h
      rw [memberLine]
      simp only [List.cons_append]
      rfl

theorem splitNl_members :
    ∀ (es : LocaleMap) (m : JSStr), '\n' ∉ m →
    splitNl (m ++ (membersTail es ++ '\n' :: '}' :: '\n' :: [])) =
      memberLinesOf m es ++ [['}'], []] := by
  intro es
  induction es with
  | nil =>
    intro m hm
    rw [membersTail, List.nil_append, splitNl_append_line m hm]
    rfl
  | cons e es ih =>
    intro m hm
    rw [membersTail]
    have hassoc : m ++ ((',' :: '\n' :: memberLine e ++ membersTail es) ++
        '\n' :: '}' :: '\n' :: []) =
        (m ++ [',']) ++ '\n' :: (memberLine e ++
          (membersTail es ++ '\n' :: '}' :: '\n' :: [])) := by
      simp [List.append_assoc]
    rw [hassoc]
    have hmc : '\n' ∉ m ++ [','] := by
      intro h
      rcases List.mem_append.mp h with h' | h'
      · exact hm h'
      · simp at h'
    rw [splitNl_append_line _ hmc]
    rw [ih (memberLine e) (memberLine_no_nl e)]
    rw [memberLinesOf]
    rfl

theorem serializeLocale_lines (obj : LocaleMap) :
    ∀ line ∈ ((splitNl (serializeLocale obj)).drop 1).dropLast.dropLast,
    line.take 2 = [' ', ' '] := by
  cases hse : propOrder (sortedEntries obj) with
  | nil =>
    intro line hline
    unfold serializeLocale at hline
    rw [hse] at hline
    have hempty : ((splitNl (jsonStringifyMap ([] : LocaleMap) ++
        ['\n'])).drop 1).dropLast.dropLast = [] := by decide
    rw [hempty] at hline
    exact absurd hline (List.not_mem_nil line)
  | cons e es =>
    intro line hline
    unfold serializeLocale at hline
    rw [hse] at hline
    rw [jsonStringifyMap] at hline
    have hassoc : ('{' :: '\n' ::
        (memberLine e ++ membersTail es ++ '\n' :: '}' :: [])) ++ ['\n'] =
        '{' :: '\n' :: (memberLine e ++
          (membersTail es ++ '\n' :: '}' :: '\n' :: [])) := by
      simp [List.append_assoc]
    rw [hassoc] at hline
    have hsplit : splitNl ('{' :: '\n' :: (memberLine e ++
        (membersTail es ++ '\n' :: '}' :: '\n' :: []))) =
        ['{'] :: (memberLinesOf (memberLine e) es ++ [['}'], []]) := by
      rw [show ('{' :: '\n' :: (memberLine e ++
          (membersTail es ++ '\n' :: '}' :: '\n' :: []))) =
          ['{'] ++ '\n' :: (memberLine e ++
            (membersTail es ++ '\n' :: '}' :: '\n' :: [])) from rfl]
      rw [splitNl_append_line ['{'] (by decide)]
      rw [splitNl_members es (memberLine e) (memberLine_no_nl e)]
    rw [hsplit] at hline
    simp only [List.drop_succ_cons, List.drop_zero] at hline
    have hshape : memberLinesOf (memberLine e) es ++ [['}'], []] =
        ((memberLinesOf (memberLine e) es ++ [['}']]) ++ [[]]) := by
      simp [List.append_assoc]
    rw [hshape, List.dropLast_concat, List.dropLast_concat] at hline
    refine memberLinesOf_take2 es (memberLine e) ?_ line hline
    rw [memberLine]
    simp only [List.cons_append]
    rfl

/-- C2 (amended): the text written for a locale dictionary is valid
JSON — it parses back, under a JSON-object recognizer, to exactly the
serialized entries, which are the dictionary's entries except an own
`"__proto__"` key, silently dropped by the rebuild's assignment — with
2-space indentation on every member line and a trailing newline.  Its
keys appear in JavaScript property order: array-index keys first in
strictly ascending numeric order, then the remaining keys in strictly
ascending lexicographic (UTF-16) order; in particular, when no key is
an array index the whole key sequence is strictly ascending
lexicographically.  The unqualified claim that the keys are always in
strictly ascending lexicographic order fails for dictionaries mixing
array-index keys such as `"2"` and `"10"`. -/
theorem claim_C2_serialization (obj : LocaleMap)
    (hnd : (obj.map Prod.fst).Nodup) :
    parseJsonObj (serializeLocale obj) =
      some (propOrder (sortedEntries obj)) ∧
    (serializeLocale obj).getLast? = some '\n' ∧
    (∀ line ∈ ((splitNl (serializeLocale obj)).drop 1).dropLast.dropLast,
      line.take 2 = [' ', ' ']) ∧
    List.Chain' jsPropOrderRel
      ((propOrder (sortedEntries obj)).map Prod.fst) ∧
    ((∀ k ∈ (propOrder (sortedEntries obj)).map Prod.fst,
        isArrayIndexKey k = false) →
      List.Chain' (fun a b => jsLtKey a b = true)
        ((propOrder (sortedEntries obj)).map Prod.fst)) :=
  ⟨parseJsonObj_serializeLocale obj,
   by unfold serializeLocale; exact List.getLast?_concat _,
   serializeLocale_lines obj,
   propOrder_keys_chain obj hnd,
   propOrder_keys_chain_lex obj hnd⟩

theorem claim_C2_witness :
    (([(('a' :: []), ('1' :: []))] : LocaleMap).map Prod.fst).Nodup ∧
    parseJsonObj (serializeLocale [(('a' :: []), ('1' :: []))]) =
      some (propOrder (sortedEntries [(('a' :: []), ('1' :: []))])) := by
  refine ⟨by decide, ?_⟩
  exact (claim_C2_serialization [(('a' :: []), ('1' :: []))] (by decide)).1

/-- C2 (counterexample): for the dictionary with keys `"10"` and
`"2"`, the serialized output's keys appear in the order `"2"`, `"10"`
(array-index keys in numeric order), which is not strictly ascending
lexicographic order; and a dictionary whose only key is `"__proto__"`
(loadable from the file `{"__proto__": "x"}`) is serialized as the
empty object `{}`, losing the entry.  Both refute the claim as
stated. -/
theorem claim_C2_counterexample :
    parseJsonObj (serializeLocale
        [(('1' :: '0' :: []), ('a' :: [])), (('2' :: []), ('b' :: []))]) =
      some [(('2' :: []), ('b' :: [])), (('1' :: '0' :: []), ('a' :: []))] ∧
    ¬ List.Chain' (fun a b => jsLtKey a b = true)
        ((propOrder (sortedEntries
          [(('1' :: '0' :: []), ('a' :: [])),
            (('2' :: []), ('b' :: []))])).map Prod.fst) ∧
    parseJsonObj (serializeLocale [((protoKey), ('x' :: []))]) = some [] := by
  refine ⟨by decide, ?_, by decide⟩
  intro h
  rw [show ((propOrder (sortedEntries
        [(('1' :: '0' :: []), ('a' :: [])),
          (('2' :: []), ('b' :: []))])).map Prod.fst) =
      [('2' :: []), ('1' :: '0' :: [])] from by decide] at h
  exact absurd (List.chain'_cons.mp h).1 (by decide)

end I18nScan
